import Mathlib

/-!
# Verification of workspace-utils core subsystems

A shallow embedding, in Lean, of the core data structures and algorithms of
the workspace-utils monorepo orchestrator:

* the process supervisor (`src/core/process-runner.ts`): `runCommand`,
  `runParallel` with its `waitForAny` concurrency window, `runSequential`,
  `runBatches`;
* the dependency graph engine (`src/core/dependency-graph.ts`):
  `addPackage`, `addDependency`, Kahn topological sort, cycle detection,
  build-batch derivation;
* the build cache (`src/core/cache.ts`): input-hash composition,
  `isValid`, `update`, `invalidatePackage`, `invalidateDependents`.

Modelling conventions:

* JavaScript `Map` objects are association lists with unique keys in
  insertion order; `Set` objects are duplicate-free lists in insertion
  order (insertion is `setAdd`).
* Asynchronous completion is made explicit: a *schedule* (`List Nat`)
  chooses, at each `waitForAny` suspension point, which in-flight child
  completes first.  Each submitted command is represented by the
  `ProcessResult` its child eventually produces.
* SHA-256 is abstracted by an injective fingerprint; since the code only
  ever compares hashes for equality, the identity on the serialized input
  is a faithful model (`hashString`).
* Recursions that the source runs unbounded are given explicit fuel with
  a documented sufficient bound, so every definition is executable.
-/

/-! ## Process supervisor (`src/core/process-runner.ts`) -/

/-- `ProcessResult` from `process-runner.ts`: the record each driver
returns per command.  `exitCode` is an `Int` as in JavaScript. -/
structure ProcessResult where
  success : Bool
  exitCode : Int
  packageName : String
  command : String
  duration : Nat
deriving DecidableEq, Repr

/-- The event that settles `runCommand`'s promise: either the child's
`close` event (whose exit code is `null` — here `none` — when the child
was terminated by a signal), or the `error` event of a failed spawn. -/
inductive SpawnOutcome where
  | close (exitCode : Option Int)
  | fail (message : String)
deriving DecidableEq, Repr

/-- `ProcessRunner.runCommand`: builds the `ProcessResult` from the spawn
outcome.  On `close`, the source computes `const code = exitCode || 0`,
so a `null` exit code is coerced to `0`; `success` is `code === 0`.
On the `error` event it resolves with `success: false, exitCode: 1`.
Log emission is side-effect only and not modelled. -/
def runCommand (packageName command : String) (duration : Nat)
    (outcome : SpawnOutcome) : ProcessResult :=
  match outcome with
  | .close exitCode =>
    let code : Int := match exitCode with
      | none => 0
      | some n => n
    { success := code == 0, exitCode := code, packageName := packageName,
      command := command, duration := duration }
  | .fail _ =>
    { success := false, exitCode := 1, packageName := packageName,
      command := command, duration := duration }

/-- `ProcessRunner.waitForAny`: resolves with the index of whichever
in-flight promise completes first.  Which one that is depends on the
children's completion order, which the model supplies as a schedule
choice; `choice % executing.length` keeps the index in range exactly as
the event loop only ever reports an index of a live promise. -/
def waitForAny {α : Type} (executing : List α) (choice : Nat) : Nat :=
  choice % executing.length

/-- The loop body of `ProcessRunner.runParallel`.  `executing` is the
window of in-flight commands (each represented by its eventual result).
After pushing the next command, if `executing.length >= concurrency` or
the command was the last one, the source awaits `waitForAny`, pushes the
*completed* result onto `results`, and splices the completed promise out
of the window.  After the loop, `Promise.all(executing)` appends the
remaining results in window (= submission) order.  Each `waitForAny`
consumes one entry of the schedule. -/
def runParallelGo {α : Type} (concurrency : Nat) :
    List α → List α → List Nat → List α
  | [], executing, _ => executing
  | c :: rest, executing, sched =>
    let executing' := executing ++ [c]
    if concurrency ≤ executing'.length ∨ rest.isEmpty then
      let k := waitForAny executing' (sched.headD 0)
      executing'.getD k c ::
        runParallelGo concurrency rest (executing'.eraseIdx k) sched.tail
    else
      runParallelGo concurrency rest executing' sched

/-- `ProcessRunner.runParallel` with concurrency bound and completion
schedule; commands are represented by their eventual results. -/
def runParallel {α : Type} (concurrency : Nat) (commands : List α)
    (sched : List Nat) : List α :=
  runParallelGo concurrency commands [] sched

/-- `ProcessRunner.runSequential`: awaits each command in turn, pushes
its result, and breaks out of the loop after the first result with
`success == false`. -/
def runSequential : List ProcessResult → List ProcessResult
  | [] => []
  | r :: rest => if r.success then r :: runSequential rest else [r]

/-- `ProcessRunner.runBatches`: for each batch in order, run it through
`runParallel`, append the batch results, and break if the batch had any
failure (`batchResults.filter(r => !r.success).length > 0`).  Each batch
consumes one per-batch schedule. -/
def runBatches (concurrency : Nat) :
    List (List ProcessResult) → List (List Nat) → List ProcessResult
  | [], _ => []
  | batch :: rest, scheds =>
    let batchResults := runParallel concurrency batch (scheds.headD [])
    let failures := batchResults.filter (fun r => !r.success)
    if 0 < failures.length then batchResults
    else batchResults ++ runBatches concurrency rest scheds.tail

/-- The results `runBatches` obtains for the batch at index `i` (used to
state properties of `runBatches`; batch `i` consumes the `i`-th schedule). -/
def batchRun (concurrency : Nat) (batches : List (List ProcessResult))
    (scheds : List (List Nat)) (i : Nat) : List ProcessResult :=
  runParallel concurrency (batches.getD i []) ((scheds.drop i).headD [])

/-! ## Dependency graph (`src/core/dependency-graph.ts`) -/

/-- `DependencyNode`: the per-package node.  The `Set<string>` fields are
duplicate-free lists in insertion order. -/
structure DependencyNode where
  name : String
  dependencies : List String
  dependents : List String
deriving DecidableEq, Repr

/-- `TopologicalResult` from `dependency-graph.ts`. -/
structure TopologicalResult where
  order : List String
  cycles : List (List String)
deriving DecidableEq, Repr

/-- `DependencyGraph`: `nodes` models the `Map<string, DependencyNode>`
as an association list with unique keys in insertion order. -/
structure DependencyGraph where
  nodes : List (String × DependencyNode)
deriving DecidableEq, Repr

/-- `Set.add`: append the element unless it is already present. -/
def setAdd (l : List String) (x : String) : List String :=
  if x ∈ l then l else l ++ [x]

/-- The empty graph (`new DependencyGraph()`). -/
def DependencyGraph.empty : DependencyGraph := ⟨[]⟩

/-- `DependencyGraph.addPackage`: insert a fresh node unless the name is
already a key of the map. -/
def DependencyGraph.addPackage (g : DependencyGraph) (packageName : String) :
    DependencyGraph :=
  if (g.nodes.lookup packageName).isSome then g
  else ⟨g.nodes ++ [(packageName, ⟨packageName, [], []⟩)]⟩

/-- The effect on the node stored under key `k` of the two `Set.add`
mutations of `addDependency(packageName, dependencyName)`:
`dependencyName` joins the package's `dependencies` set and
`packageName` joins the dependency's `dependents` set. -/
def edgeUpdate (packageName dependencyName : String) (k : String)
    (node : DependencyNode) : DependencyNode :=
  let node := if k = packageName then
      { node with dependencies := setAdd node.dependencies dependencyName }
    else node
  if k = dependencyName then
    { node with dependents := setAdd node.dependents packageName }
  else node

/-- `DependencyGraph.addDependency`: ensure both nodes exist, then add
`dependencyName` to the package's `dependencies` set and `packageName` to
the dependency's `dependents` set.  The in-place `Set.add` mutations are
modelled by rewriting the two affected nodes (`edgeUpdate`). -/
def DependencyGraph.addDependency (g : DependencyGraph)
    (packageName dependencyName : String) : DependencyGraph :=
  let g1 := (g.addPackage packageName).addPackage dependencyName
  ⟨g1.nodes.map (fun kv => (kv.1, edgeUpdate packageName dependencyName kv.1 kv.2))⟩

/-- `DependencyGraph.getPackages`: the map keys in insertion order. -/
def DependencyGraph.getPackages (g : DependencyGraph) : List String :=
  g.nodes.map Prod.fst

/-- `DependencyGraph.getDependencies`: direct dependencies, `[]` for a
missing node. -/
def DependencyGraph.getDependencies (g : DependencyGraph)
    (packageName : String) : List String :=
  match g.nodes.lookup packageName with
  | some node => node.dependencies
  | none => []

/-- `DependencyGraph.getDependents`: direct dependents, `[]` for a
missing node. -/
def DependencyGraph.getDependents (g : DependencyGraph)
    (packageName : String) : List String :=
  match g.nodes.lookup packageName with
  | some node => node.dependents
  | none => []

/-- One call of the public mutation API of `DependencyGraph`. -/
inductive GraphOp where
  | addPackage (packageName : String)
  | addDependency (packageName dependencyName : String)
deriving DecidableEq, Repr

/-- Apply one API call. -/
def applyOp (g : DependencyGraph) : GraphOp → DependencyGraph
  | .addPackage n => g.addPackage n
  | .addDependency p d => g.addDependency p d

/-- Apply a sequence of API calls in order. -/
def applyOps (g : DependencyGraph) (ops : List GraphOp) : DependencyGraph :=
  ops.foldl applyOp g

/-- Well-formedness of a graph value, as maintained by the class:
unique node keys, duplicate-free edge sets, and the two edge sets
mirroring each other and staying inside the node set. -/
def DependencyGraph.WF (g : DependencyGraph) : Prop :=
  (g.nodes.map Prod.fst).Nodup ∧
  (∀ kv ∈ g.nodes, kv.2.dependencies.Nodup) ∧
  (∀ kv ∈ g.nodes, kv.2.dependents.Nodup) ∧
  (∀ kv ∈ g.nodes, ∀ d ∈ kv.2.dependencies,
    d ∈ g.nodes.map Prod.fst ∧ kv.1 ∈ g.getDependents d) ∧
  (∀ kv ∈ g.nodes, ∀ y ∈ kv.2.dependents,
    y ∈ g.nodes.map Prod.fst ∧ kv.1 ∈ g.getDependencies y)

/-- The edge relation: `x` depends on `y` (i.e. `y` is listed among the
workspace dependencies of `x` in the graph). -/
def dependsOn (g : DependencyGraph) (x y : String) : Prop :=
  y ∈ g.getDependencies x

/-- A graph is a DAG when the dependency relation has no (non-trivial)
cycle through any node. -/
def Acyclic (g : DependencyGraph) : Prop :=
  ∀ x, ¬ Relation.TransGen (dependsOn g) x x

/-- The body of the `for (const dependent of dependents)` loop inside
the Kahn iteration: decrement the dependent's in-degree and enqueue it
when the decremented value is exactly `0`. -/
def kahnVisit (acc : (String → Int) × List String) (dependent : String) :
    (String → Int) × List String :=
  let n := acc.1 dependent - 1
  let inDeg' := fun x => if x = dependent then n else acc.1 x
  let queue' := if n = 0 then acc.2 ++ [dependent] else acc.2
  (inDeg', queue')

/-- The Kahn `while (queue.length > 0)` loop of `topologicalSort`, with
explicit fuel.  State: FIFO `queue`, the `inDegree` map (a total
function, `Int`-valued as in JavaScript), and the emitted `result`.
Each iteration shifts the queue head, emits it, and folds `kahnVisit`
over its dependents.  Returns the result together with the final queue
(which is `[]` whenever the fuel covers the iteration count; one unit
of fuel per loop iteration, and a well-formed graph enqueues each node
at most once, so `g.nodes.length` fuel is exact). -/
def kahnLoop (g : DependencyGraph) :
    Nat → List String → (String → Int) → List String →
    List String × List String
  | 0, queue, _, result => (result, queue)
  | _ + 1, [], _, result => (result, [])
  | fuel + 1, current :: queue, inDeg, result =>
    let step := (g.getDependents current).foldl kahnVisit (inDeg, queue)
    kahnLoop g fuel step.2 step.1 (result ++ [current])

/-- State of the cycle-reporting DFS (`detectCycles`): the `visited` and
`recStack` sets and the accumulated cycles. -/
structure DfsState where
  visited : List String
  recStack : List String
  cycles : List (List String)

/-- The recursive `dfs` closure inside `detectCycles`, with explicit
fuel for the recursion depth (bounded by the number of nodes plus one,
since each recursive level adds a fresh node to `visited`).  On hitting
a node already on the recursion stack it records
`path.slice(path.indexOf(node)).concat([node])` when the node occurs in
`path`; dependencies outside `remaining` are not followed. -/
def dfsCycles (g : DependencyGraph) (remaining : List String) :
    Nat → String → List String → DfsState → DfsState
  | 0, _, _, s => s
  | fuel + 1, node, path, s =>
    if node ∈ s.recStack then
      if node ∈ path then
        { s with cycles := s.cycles ++ [path.drop (path.indexOf node) ++ [node]] }
      else s
    else if node ∈ s.visited then s
    else
      let s1 : DfsState :=
        { s with visited := s.visited ++ [node], recStack := s.recStack ++ [node] }
      let s2 := ((g.getDependencies node).filter
          (fun d => remaining.contains d)).foldl
        (fun acc dep => dfsCycles g remaining fuel dep (path ++ [node]) acc) s1
      { s2 with recStack := s2.recStack.erase node }

/-- `DependencyGraph.detectCycles`: DFS from each remaining node that is
not yet visited. -/
def detectCycles (g : DependencyGraph) (remainingNodes : List String) :
    List (List String) :=
  (remainingNodes.foldl
    (fun s node =>
      if node ∈ s.visited then s
      else dfsCycles g remainingNodes (g.nodes.length + 1) node [] s)
    ⟨[], [], []⟩).cycles

/-- `DependencyGraph.topologicalSort`: initialize each node's in-degree
to the size of its dependency set, seed the queue with the zero-degree
nodes in map order, run the Kahn loop, and if the emitted order misses
nodes, report cycles among the unemitted ones. -/
def DependencyGraph.topologicalSort (g : DependencyGraph) :
    TopologicalResult :=
  let inDeg : String → Int := fun x => ((g.getDependencies x).length : Int)
  let queue := (g.nodes.filter (fun kv => kv.2.dependencies.isEmpty)).map Prod.fst
  let run := kahnLoop g g.nodes.length queue inDeg []
  let result := run.1
  if result.length = g.nodes.length then ⟨result, []⟩
  else
    ⟨result, detectCycles g (g.getPackages.filter (fun pkg => !(result.contains pkg)))⟩

/-- The `while (processed.size < order.length)` loop of
`getBuildBatches`, with explicit fuel.  Each round filters the
topological order down to the unprocessed packages whose dependencies
are all processed; an empty round raises the source's "Unable to
determine build order" error; otherwise the round's batch is emitted and
marked processed.  Every productive round grows `processed`, so
`order.length + 1` fuel always covers the loop. -/
def buildBatchesLoop (g : DependencyGraph) (order : List String) :
    Nat → List String → Except String (List (List String))
  | 0, _ => .error ("fuel exhausted")
  | fuel + 1, processed =>
    if processed.length < order.length then
      let currentBatch := order.filter (fun packageName =>
        !(processed.contains packageName) &&
          (g.getDependencies packageName).all (fun dep => processed.contains dep))
      if currentBatch.isEmpty then
        .error ("Unable to determine build order - possible circular dependency")
      else
        match buildBatchesLoop g order fuel (currentBatch.foldl setAdd processed) with
        | .ok batches => .ok (currentBatch :: batches)
        | .error e => .error e
    else .ok []

/-- `DependencyGraph.getBuildBatches`: throws on detected cycles, then
derives the batches from the topological order. -/
def DependencyGraph.getBuildBatches (g : DependencyGraph) :
    Except String (List (List String)) :=
  let r := g.topologicalSort
  if 0 < r.cycles.length then
    .error ("Circular dependencies detected: " ++
      String.intercalate (", ") (r.cycles.map (String.intercalate (" -> "))))
  else
    buildBatchesLoop g r.order (r.order.length + 1) []

/-- The batch assembled by one round of the `getBuildBatches` loop: the
packages of the topological order not yet processed whose workspace
dependencies are all processed (the `for (const packageName of order)`
accumulation of `currentBatch`). -/
def currentBatchOf (g : DependencyGraph) (order processed : List String) :
    List String :=
  order.filter (fun packageName =>
    !(processed.contains packageName) &&
      (g.getDependencies packageName).all (fun dep => processed.contains dep))

/-! ## Build cache (`src/core/cache.ts`) -/

/-- `PackageInfo` from `src/core/workspace.ts`, restricted to the fields
the cache and the invalidation walk consult (`packageJson` and `scripts`
are carried opaquely by the source and never read by these operations). -/
structure PackageInfo where
  name : String
  path : String
  dependencies : List String
  devDependencies : List String
deriving DecidableEq, Repr

/-- `CacheEntry` from `cache.ts`.  `dependencyHashes` models the
`Record<string, string | undefined>` as an association list. -/
structure CacheEntry where
  inputHash : String
  dependencyHashes : List (String × Option String)
  lastBuild : String
  buildDuration : Nat
  builtBy : String
deriving DecidableEq, Repr

/-- The in-memory cache state: `packageCaches` (a `Map` as association
list with unique keys) and the manifest's package-name array. -/
structure CacheState where
  packageCaches : List (String × CacheEntry)
  manifestPackages : List String
deriving DecidableEq, Repr

/-- The filesystem facts the hash computation reads, held fixed while no
file is mutated: `fileHash path` is the SHA-256 of the file contents at
`path` (`""` when the file fails to stat, as in `hashFile`'s catch
branch), and `sourceFiles packagePath` is the package's source set as
`(absolute, relative)` pairs (already filtered of `node_modules/`,
`.git/`, `.wsu/` and VCS-ignored files, as `getSourceFiles` produces it).
The per-package `FileIndex` is a pure mtime/size memo over these same
hashes, so it needs no separate state here. -/
structure CacheEnv where
  fileHash : String → String
  sourceFiles : String → List (String × String)

/-- SHA-256 abstracted by an injective fingerprint: the code only ever
compares hash values for equality, so the identity on the serialized
input is a faithful model. -/
def hashString (s : String) : String := s

/-- JavaScript `Array.prototype.sort()` on strings (lexicographic),
as an insertion sort. -/
def insertSorted (x : String) : List String → List String
  | [] => [x]
  | y :: ys => if x ≤ y then x :: y :: ys else y :: insertSorted x ys

/-- Sort a list of strings lexicographically (models `.sort()`). -/
def sortStrings (l : List String) : List String :=
  l.foldr insertSorted []

/-- `BuildCache.calculatePackageHash`: combine the manifest-file hash,
the sorted `relative:hash` lines of the source set (files whose hash is
the empty string — stat failures — are skipped by the `if (hash)`
guard), and the sorted `dep:inputHash` pairs over
`dependencies ++ devDependencies` (with the `MISSING` sentinel), joined
with the source's separators and hashed.  The `packageMap` parameter is
accepted and ignored exactly as in the source. -/
def calculatePackageHash (env : CacheEnv)
    (packageCaches : List (String × CacheEntry)) (pkg : PackageInfo)
    (packageMap : List (String × PackageInfo)) : String :=
  let packageJsonHash := env.fileHash (pkg.path ++ "/package.json")
  let fileHashes := (env.sourceFiles pkg.path).filterMap (fun f =>
    let hash := env.fileHash f.1
    if hash = "" then none else some (f.2 ++ ":" ++ hash))
  let depHashes := (pkg.dependencies ++ pkg.devDependencies).map (fun depName =>
    match packageCaches.lookup depName with
    | some depEntry => depName ++ ":" ++ depEntry.inputHash
    | none => depName ++ ":MISSING")
  let combined :=
    ("packageJson:" ++ packageJsonHash) ++ "\n" ++
    ("sources:" ++ String.intercalate (",") (sortStrings fileHashes)) ++ "\n" ++
    ("deps:" ++ String.intercalate (",") (sortStrings depHashes))
  hashString combined

/-- `Map.set`: replace the entry in place when the key is present,
append otherwise. -/
def mapSet (m : List (String × CacheEntry)) (k : String) (v : CacheEntry) :
    List (String × CacheEntry) :=
  if (m.lookup k).isSome then
    m.map (fun e => if e.1 = k then (k, v) else e)
  else m ++ [(k, v)]

/-- `BuildCache.savePackageCache`: store the entry in `packageCaches`
and add the package to the manifest if absent (disk writes are the
persisted image of this state and not modelled separately). -/
def savePackageCache (st : CacheState) (packageName : String)
    (entry : CacheEntry) : CacheState :=
  { packageCaches := mapSet st.packageCaches packageName entry,
    manifestPackages :=
      if packageName ∈ st.manifestPackages then st.manifestPackages
      else st.manifestPackages ++ [packageName] }

/-- `BuildCache.isValid`: an entry exists and its stored `inputHash`
equals the freshly recomputed one. -/
def isValid (env : CacheEnv) (st : CacheState) (pkg : PackageInfo)
    (packageMap : List (String × PackageInfo)) : Bool :=
  match st.packageCaches.lookup pkg.name with
  | none => false
  | some entry =>
    entry.inputHash == calculatePackageHash env st.packageCaches pkg packageMap

/-- `BuildCache.update`: recompute the input hash, snapshot the current
dependency hashes, and save the new entry (`lastBuild` is the wall
clock, passed in as `now`; the file-index save has no observable effect
in this model). -/
def update (env : CacheEnv) (st : CacheState) (pkg : PackageInfo)
    (packageMap : List (String × PackageInfo)) (buildDuration : Nat)
    (now : String) : CacheState :=
  let inputHash := calculatePackageHash env st.packageCaches pkg packageMap
  let dependencyHashes := (pkg.dependencies ++ pkg.devDependencies).map
    (fun depName => (depName, (st.packageCaches.lookup depName).map (·.inputHash)))
  let entry : CacheEntry :=
    { inputHash := inputHash, dependencyHashes := dependencyHashes,
      lastBuild := now, buildDuration := buildDuration, builtBy := "wsu" }
  savePackageCache st pkg.name entry

/-- `BuildCache.invalidatePackage`: delete the package's entry from the
`Map` (deleting the unique entry of a key equals filtering it out) and
splice its name out of the manifest array. -/
def invalidatePackage (st : CacheState) (packageName : String) : CacheState :=
  { packageCaches := st.packageCaches.filter (fun e => !(e.1 == packageName)),
    manifestPackages := st.manifestPackages.erase packageName }

/-- Whether the cache holds an entry for `packageName`
(`this.packageCaches.has(...)`). -/
def hasEntry (st : CacheState) (packageName : String) : Bool :=
  (st.packageCaches.lookup packageName).isSome

/-- Whether package `p` lists `x` among its dependencies or
devDependencies (the filter predicate of `invalidateDependents`). -/
def listsAsDep (p : PackageInfo) (x : String) : Bool :=
  p.dependencies.contains x || p.devDependencies.contains x

/-- The `for (const dependent of dependents)` loop of
`invalidateDependents`: when the dependent has a cache entry, invalidate
it and recurse on it (`recur` is the recursive call at the next fuel
level). -/
def invalidateDependentsGo (recur : CacheState → String → CacheState) :
    CacheState → List PackageInfo → CacheState
  | st, [] => st
  | st, d :: rest =>
    let st' := if hasEntry st d.name
      then recur (invalidatePackage st d.name) d.name
      else st
    invalidateDependentsGo recur st' rest

/-- `BuildCache.invalidateDependents`, with explicit fuel for the
recursion depth.  Every recursive call is preceded by the removal of a
cache entry, so the depth is bounded by the number of cached packages;
fuel `st.packageCaches.length + 1` therefore reproduces the source's
unbounded recursion exactly. -/
def invalidateDependents (packages : List PackageInfo) :
    Nat → CacheState → String → CacheState
  | 0, st, _ => st
  | fuel + 1, st, packageName =>
    invalidateDependentsGo (invalidateDependents packages fuel) st
      (packages.filter (fun p => listsAsDep p packageName))

/-- `q` lists `base` as a dependency or devDependency, directly or
transitively — the reverse-edge walk of the specification, with no
condition on cache membership along the way. -/
inductive ListsTrans (packages : List PackageInfo) (base : String) :
    String → Prop
  | direct (p : PackageInfo) : p ∈ packages → listsAsDep p base = true →
      ListsTrans packages base p.name
  | step (p : PackageInfo) (mid : String) : ListsTrans packages base mid →
      p ∈ packages → listsAsDep p mid = true →
      ListsTrans packages base p.name

/-- `q` lists `base` directly, or transitively through intermediate
packages every one of which holds a cache entry in `st` — the walk that
`invalidateDependents` actually performs, since it only recurses into
dependents it found cached. -/
inductive ReachCached (packages : List PackageInfo) (st : CacheState)
    (base : String) : String → Prop
  | direct (p : PackageInfo) : p ∈ packages → listsAsDep p base = true →
      ReachCached packages st base p.name
  | step (p : PackageInfo) (mid : String) : ReachCached packages st base mid →
      hasEntry st mid = true → p ∈ packages → listsAsDep p mid = true →
      ReachCached packages st base p.name

/-! ## Concrete instances used by witnesses and counterexamples -/

/-- A two-package graph `app → lib`, built through the public API. -/
def graphAppLib : DependencyGraph :=
  DependencyGraph.empty.addDependency ("app") ("lib")

/-- Package `D`, depending on `P`. -/
def pkgD : PackageInfo := ⟨"D", "/d", ["P"], []⟩

/-- Package `E`, depending on `D` (hence transitively on `P`). -/
def pkgE : PackageInfo := ⟨"E", "/e", ["D"], []⟩

/-- A fixed cache entry value. -/
def entry0 : CacheEntry := ⟨"h0", [], "t0", 0, "wsu"⟩

/-- Cache state where only `E` is cached (the intermediate `D` is not). -/
def stOnlyE : CacheState := ⟨[("E", entry0)], ["E"]⟩

/-- Cache state where both `D` and `E` are cached. -/
def stDE : CacheState := ⟨[("D", entry0), ("E", entry0)], ["D", "E"]⟩

/-- A package that lists itself among its dependencies. -/
def pkgSelf : PackageInfo := ⟨"a", "/a", ["a"], []⟩

/-- A package with an ordinary (non-self) dependency. -/
def pkgB : PackageInfo := ⟨"b", "/b", ["c"], []⟩

/-- A toy filesystem: every file hashes to `"h"`, no source files. -/
def envConst : CacheEnv := ⟨fun _ => "h", fun _ => []⟩

/-- The empty cache state. -/
def emptyCache : CacheState := ⟨[], []⟩

/-- The state invariant of the Kahn loop of `topologicalSort`, relative
to a graph: the emitted `result` and the FIFO `queue` are duplicate-free
disjoint lists of graph nodes; `inDeg` counts, for every node, its
dependencies not yet emitted; every emitted node saw all its
dependencies emitted first; every queued node is ready (all
dependencies emitted); and every ready unemitted node is queued. -/
structure KahnInv (g : DependencyGraph) (queue : List String)
    (inDeg : String → Int) (result : List String) : Prop where
  result_nodup : result.Nodup
  queue_nodup : queue.Nodup
  disj : ∀ x ∈ queue, x ∉ result
  result_keys : ∀ x ∈ result, x ∈ g.getPackages
  queue_keys : ∀ x ∈ queue, x ∈ g.getPackages
  deg : ∀ x ∈ g.getPackages, inDeg x =
    (((g.getDependencies x).filter
      (fun d => !(result.contains d))).length : Int)
  sorted : ∀ (i : Nat) (hi : i < result.length),
    ∀ d ∈ g.getDependencies (result.get ⟨i, hi⟩), d ∈ result.take i
  queue_ready : ∀ x ∈ queue, ∀ d ∈ g.getDependencies x, d ∈ result
  complete : ∀ x ∈ g.getPackages, x ∉ result →
    (∀ d ∈ g.getDependencies x, d ∈ result) → x ∈ queue

/-! # Theorems -/

/-! ## List helpers -/

/-- Removing the element at a valid index and putting it back in front is
a permutation of the original list. -/
theorem getD_cons_eraseIdx_perm {α : Type} :
    ∀ (l : List α) (k : Nat), k < l.length → ∀ d : α,
      (l.getD k d :: l.eraseIdx k).Perm l := by
  intro l
  induction l with
  | nil => intro k hk d; simp at hk
  | cons a t ih =>
    intro k hk d
    cases k with
    | zero => simp
    | succ k =>
      simp only [List.length_cons, Nat.succ_lt_succ_iff] at hk
      simp only [List.getD_cons_succ, List.eraseIdx_cons_succ]
      exact (List.Perm.swap a (t.getD k d) (t.eraseIdx k)).trans
        ((ih k hk d).cons a)

/-! ## Process supervisor -/

/-- The parallel window loop returns a permutation of the in-flight
window followed by the remaining commands, for every schedule. -/
theorem runParallelGo_perm {α : Type} (concurrency : Nat) :
    ∀ (cmds executing : List α) (sched : List Nat),
      (runParallelGo concurrency cmds executing sched).Perm
        (executing ++ cmds) := by
  intro cmds
  induction cmds with
  | nil => intro ex sched; simp [runParallelGo]
  | cons c rest ih =>
    intro ex sched
    rw [runParallelGo]
    by_cases hcond : concurrency ≤ (ex ++ [c]).length ∨ rest.isEmpty = true
    · rw [if_pos hcond]
      have hlen : 0 < (ex ++ [c]).length := by simp
      have hk : waitForAny (ex ++ [c]) (sched.headD 0) < (ex ++ [c]).length :=
        Nat.mod_lt _ hlen
      have h1 := getD_cons_eraseIdx_perm (ex ++ [c]) _ hk c
      have h2 := ih ((ex ++ [c]).eraseIdx (waitForAny (ex ++ [c]) (sched.headD 0)))
        sched.tail
      have heq : (ex ++ [c]) ++ rest = ex ++ c :: rest := by simp
      exact ((h2.cons _).trans ((h1.append_right rest).trans (heq ▸ List.Perm.refl _)))
    · rw [if_neg hcond]
      have heq : (ex ++ [c]) ++ rest = ex ++ c :: rest := by simp
      exact (ih (ex ++ [c]) sched).trans (heq ▸ List.Perm.refl _)

/-- With an all-zero schedule (`waitForAny` always reports the
earliest-submitted in-flight command, i.e. children complete in
submission order) the loop keeps submission order. -/
theorem runParallelGo_fifo {α : Type} (concurrency : Nat) :
    ∀ (cmds executing : List α) (sched : List Nat), (∀ s ∈ sched, s = 0) →
      runParallelGo concurrency cmds executing sched = executing ++ cmds := by
  intro cmds
  induction cmds with
  | nil => intro ex sched _; simp [runParallelGo]
  | cons c rest ih =>
    intro ex sched hz
    rw [runParallelGo]
    have htail : ∀ s ∈ sched.tail, s = 0 :=
      fun s hs => hz s ((List.tail_sublist sched).subset hs)
    have hhead : sched.headD 0 = 0 := by
      cases sched with
      | nil => rfl
      | cons s t => exact hz s (List.mem_cons_self s t)
    by_cases hcond : concurrency ≤ (ex ++ [c]).length ∨ rest.isEmpty = true
    · rw [if_pos hcond]
      have hk : waitForAny (ex ++ [c]) (sched.headD 0) = 0 := by
        rw [hhead]; simp [waitForAny]
      rw [hk]
      cases ex with
      | nil =>
        simp only [List.nil_append, List.getD_cons_zero, List.eraseIdx_cons_zero]
        rw [ih [] sched.tail htail]
        simp
      | cons e t =>
        have hee : ((e :: t) ++ [c] : List α) = e :: (t ++ [c]) := rfl
        rw [hee]
        simp only [List.getD_cons_zero, List.eraseIdx_cons_zero]
        rw [ih (t ++ [c]) sched.tail htail]
        simp
    · rw [if_neg hcond]
      rw [ih (ex ++ [c]) sched hz]
      simp

/-- **C1** (amended).  `runParallel` returns exactly one result per
submitted command — the result list is a permutation of the individual
command results — but its order follows *completion* order while the
concurrency window is full: the i-th returned element is the result of
the i-th submitted command only when the children complete in submission
order (the all-zero schedule, under which every `waitForAny` reports the
earliest-submitted in-flight child).  The batched driver inherits this
per batch. -/
theorem runParallel_perm_and_fifo_order {α : Type} (concurrency : Nat)
    (hconc : 1 ≤ concurrency) (cmds : List α) (sched : List Nat) (m : Nat) :
    (runParallel concurrency cmds sched).Perm cmds ∧
      runParallel concurrency cmds (List.replicate m 0) = cmds := by
  constructor
  · exact runParallelGo_perm concurrency cmds [] sched
  · exact runParallelGo_fifo concurrency cmds [] (List.replicate m 0)
      (fun s hs => List.eq_of_mem_replicate hs)

/-- Counterexample to **C1** as stated: with two commands, concurrency
2 and a schedule under which the second child completes first,
`runParallel` returns `[2, 1]` — completion order, not submission
order. -/
theorem runParallel_submission_order_cex :
    runParallel 2 [1, 2] [1] = ([2, 1] : List Nat) ∧
      ¬ runParallel 2 [(1 : Nat), 2] [1] = [1, 2] := by
  constructor <;> decide

/-- Witness for **C1**: the amended statement at a concrete input. -/
theorem runParallel_perm_and_fifo_order_witness :
    1 ≤ 2 ∧ ((runParallel 2 [(10 : Nat), 20, 30] [1]).Perm [10, 20, 30] ∧
      runParallel 2 [(10 : Nat), 20, 30] (List.replicate 3 0) = [10, 20, 30]) :=
  ⟨by decide, runParallel_perm_and_fifo_order 2 (by decide) [10, 20, 30] [1] 3⟩

/-- **C10**.  For every command list and concurrency bound `N ≥ 1`,
`runParallel` returns exactly one result per submitted command: the
result list has the length of the command list and is a permutation of
the individual command results — nothing dropped, nothing duplicated. -/
theorem runParallel_one_result_per_command {α : Type} (concurrency : Nat)
    (hconc : 1 ≤ concurrency) (cmds : List α) (sched : List Nat) :
    (runParallel concurrency cmds sched).Perm cmds ∧
      (runParallel concurrency cmds sched).length = cmds.length := by
  have h : (runParallel concurrency cmds sched).Perm cmds :=
    runParallelGo_perm concurrency cmds [] sched
  exact ⟨h, h.length_eq⟩

/-- Witness for **C10** at a concrete input. -/
theorem runParallel_one_result_per_command_witness :
    1 ≤ 1 ∧ ((runParallel 1 [(4 : Nat), 5] [3]).Perm [4, 5] ∧
      (runParallel 1 [(4 : Nat), 5] [3]).length = 2) :=
  ⟨by decide, runParallel_one_result_per_command 1 (by decide) [4, 5] [3]⟩

/-- **C5** (amended).  `runCommand` reports `success = true` iff the
`close` event carried exit code `0` *or* a `null` exit code (a
signal-terminated child, which `exitCode || 0` coerces to `0`); on a
spawn error it reports failure with `exitCode = 1`. -/
theorem runCommand_success_exitCode (packageName command : String)
    (duration : Nat) (outcome : SpawnOutcome) (message : String) :
    ((runCommand packageName command duration outcome).success = true ↔
      (outcome = .close none ∨ outcome = .close (some 0))) ∧
    (runCommand packageName command duration (.fail message)).success = false ∧
    (runCommand packageName command duration (.fail message)).exitCode = 1 := by
  refine ⟨?_, rfl, rfl⟩
  cases outcome with
  | close ec =>
    cases ec with
    | none => simp [runCommand]
    | some n => simp [runCommand]
  | fail m => simp [runCommand]

/-- Counterexample to **C5** as stated: on a `close` event with a `null`
exit code the child did not exit with code `0`, yet the result is
reported successful. -/
theorem runCommand_success_iff_zero_cex :
    ¬ (((runCommand ("p") ("cmd") 0 (.close none)).success = true) ↔
        SpawnOutcome.close none = SpawnOutcome.close (some 0)) := by
  decide

/-- **C7**.  `runSequential` attempts commands strictly in order (the
recursion awaits each result before considering the next command),
stops at the first failing command without starting any later one, and
returns exactly the results of the attempted prefix: the successful
prefix plus, if present, the first failure; the returned list is a
prefix of the input of length at most the input length. -/
theorem runSequential_stops_at_first_failure (cmds : List ProcessResult) :
    runSequential cmds =
      cmds.takeWhile (fun r => r.success) ++
        (cmds.dropWhile (fun r => r.success)).take 1 ∧
    cmds.take (runSequential cmds).length = runSequential cmds ∧
    (runSequential cmds).length ≤ cmds.length := by
  refine ⟨?_, ?_, ?_⟩
  · induction cmds with
    | nil => rfl
    | cons r rest ih =>
      by_cases hr : r.success
      · simp [runSequential, hr, List.takeWhile_cons, List.dropWhile_cons, ih]
      · simp [runSequential, hr, List.takeWhile_cons, List.dropWhile_cons]
  · induction cmds with
    | nil => rfl
    | cons r rest ih =>
      by_cases hr : r.success
      · simp [runSequential, hr, List.take_succ_cons, ih]
      · simp [runSequential, hr]
  · induction cmds with
    | nil => simp [runSequential]
    | cons r rest ih =>
      by_cases hr : r.success
      · simp only [runSequential, if_pos hr, List.length_cons]
        omega
      · simp [runSequential, hr]

/-- The first batch of a cons consumes the head schedule. -/
theorem batchRun_cons_zero (concurrency : Nat) (b : List ProcessResult)
    (rest : List (List ProcessResult)) (scheds : List (List Nat)) :
    batchRun concurrency (b :: rest) scheds 0 =
      runParallel concurrency b (scheds.headD []) := by
  simp [batchRun]

/-- Later batches of a cons are the batches of the tail with the tail
schedules. -/
theorem batchRun_cons_succ (concurrency : Nat) (b : List ProcessResult)
    (rest : List (List ProcessResult)) (scheds : List (List Nat)) (i : Nat) :
    batchRun concurrency (b :: rest) scheds (i + 1) =
      batchRun concurrency rest scheds.tail i := by
  simp only [batchRun, List.getD_cons_succ]
  congr 2
  rw [← List.drop_one, List.drop_drop]
  congr 1
  omega

/-- **C8**.  `runBatches` never starts a batch after a failing one: the
returned results are exactly the concatenation of the per-batch results
of an initial segment of the batches; every batch of that segment except
possibly the last succeeded completely, and if the segment is proper the
last batch it ran contained a failing result.  Hence no entry of the
returned list comes from any batch after the first batch with a
failure. -/
theorem runBatches_no_batch_after_failure (concurrency : Nat)
    (batches : List (List ProcessResult)) (scheds : List (List Nat)) :
    ∃ k, k ≤ batches.length ∧
      (k = 0 → batches = []) ∧
      runBatches concurrency batches scheds =
        ((List.range k).map (batchRun concurrency batches scheds)).flatten ∧
      (∀ i, i + 1 < k →
        ∀ r ∈ batchRun concurrency batches scheds i, r.success = true) ∧
      (k < batches.length →
        ∃ r ∈ batchRun concurrency batches scheds (k - 1), r.success = false) := by
  induction batches generalizing scheds with
  | nil =>
    refine ⟨0, ?_⟩
    simp [runBatches]
  | cons b rest ih =>
    by_cases hfail : ∃ r ∈ runParallel concurrency b (scheds.headD []),
        r.success = false
    · refine ⟨1, by simp, by simp, ?_, ?_, ?_⟩
      · have hpos : 0 < ((runParallel concurrency b (scheds.headD [])).filter
            (fun r => !r.success)).length := by
          obtain ⟨r, hr, hrf⟩ := hfail
          have hmem : r ∈ (runParallel concurrency b (scheds.headD [])).filter
              (fun r => !r.success) := by
            rw [List.mem_filter]
            exact ⟨hr, by simp [hrf]⟩
          exact List.length_pos.mpr (List.ne_nil_of_mem hmem)
        rw [runBatches, if_pos hpos]
        show runParallel concurrency b (scheds.headD []) =
          (List.map (batchRun concurrency (b :: rest) scheds)
            (List.range 1)).flatten
        simp [List.range_succ, batchRun_cons_zero]
      · intro i hi
        exact absurd hi (by omega)
      · intro _
        have h0 : (1 : Nat) - 1 = 0 := rfl
        rw [h0, batchRun_cons_zero]
        exact hfail
    · have hall : ∀ r ∈ runParallel concurrency b (scheds.headD []),
          r.success = true := by
        intro r hr
        by_contra hne
        exact hfail ⟨r, hr, by simpa using hne⟩
      have hnofail : ¬ 0 < ((runParallel concurrency b (scheds.headD [])).filter
          (fun r => !r.success)).length := by
        rw [List.length_pos]
        intro hne
        rw [← List.length_pos] at hne
        obtain ⟨r, hr⟩ := List.exists_mem_of_length_pos hne
        rw [List.mem_filter] at hr
        have := hall r hr.1
        simp [this] at hr
      obtain ⟨k, hkle, hk0, heq, hsucc, hlast⟩ := ih scheds.tail
      refine ⟨k + 1, by simpa using Nat.succ_le_succ hkle,
        by intro h; simp at h, ?_, ?_, ?_⟩
      · rw [runBatches, if_neg hnofail]
        show runParallel concurrency b (scheds.headD []) ++
            runBatches concurrency rest scheds.tail =
          (List.map (batchRun concurrency (b :: rest) scheds)
            (List.range (k + 1))).flatten
        rw [List.range_succ_eq_map]
        simp only [List.map_cons, List.map_map, List.flatten_cons]
        rw [batchRun_cons_zero]
        congr 1
        rw [heq]
        congr 1
        apply List.map_congr_left
        intro i _
        exact (batchRun_cons_succ concurrency b rest scheds i).symm
      · intro i hi r hr
        cases i with
        | zero =>
          rw [batchRun_cons_zero] at hr
          exact hall r hr
        | succ i' =>
          rw [batchRun_cons_succ] at hr
          exact hsucc i' (by omega) r hr
      · intro hklt
        have hk1 : 1 ≤ k := by
          rcases Nat.eq_zero_or_pos k with hk | hk
          · have hnil := hk0 hk
            subst hnil
            simp at hklt
          · exact hk
        have hrest : k < rest.length := by simpa using hklt
        obtain ⟨r, hr, hrf⟩ := hlast hrest
        refine ⟨r, ?_, hrf⟩
        have hidx : k + 1 - 1 = (k - 1) + 1 := by omega
        rw [hidx, batchRun_cons_succ]
        exact hr


/-! ## Dependency graph: the dependents/dependencies mirror (C9) -/

/-- `lookup` on a cons, phrased with a propositional `if`. -/
theorem lookup_cons_if {β : Type} (k : String) (v : β)
    (t : List (String × β)) (x : String) :
    ((k, v) :: t).lookup x = if x = k then some v else t.lookup x := by
  rw [List.lookup_cons]
  by_cases h : x = k
  · subst h; simp
  · rw [beq_false_of_ne h, if_neg h]

/-- `lookup` commutes with a key-preserving map of the values. -/
theorem lookup_map_keyed (l : List (String × DependencyNode))
    (f : String → DependencyNode → DependencyNode) (x : String) :
    (l.map (fun kv => (kv.1, f kv.1 kv.2))).lookup x =
      (l.lookup x).map (fun v => f x v) := by
  induction l with
  | nil => rfl
  | cons kv t ih =>
    obtain ⟨k, v⟩ := kv
    simp only [List.map_cons]
    rw [lookup_cons_if, lookup_cons_if]
    by_cases h : x = k
    · subst h; simp
    · simp [h, ih]

/-- Membership in `setAdd`. -/
theorem mem_setAdd (l : List String) (x a : String) :
    a ∈ setAdd l x ↔ a ∈ l ∨ a = x := by
  unfold setAdd
  by_cases h : x ∈ l
  · rw [if_pos h]
    constructor
    · exact Or.inl
    · rintro (ha | rfl)
      · exact ha
      · exact h
  · rw [if_neg h]
    simp

/-- `addPackage` makes (or leaves) the package present. -/
theorem lookup_addPackage_self (g : DependencyGraph) (n : String) :
    (((g.addPackage n).nodes.lookup n).isSome) = true := by
  unfold DependencyGraph.addPackage
  by_cases h : ((g.nodes.lookup n).isSome) = true
  · rw [if_pos h]; exact h
  · rw [if_neg h]
    have hnone : g.nodes.lookup n = none := by
      cases he : g.nodes.lookup n with
      | none => rfl
      | some v => rw [he] at h; simp at h
    show ((g.nodes ++ [(n, (⟨n, [], []⟩ : DependencyNode))]).lookup n).isSome = true
    rw [List.lookup_append, hnone]
    simp [lookup_cons_if]

/-- `addPackage` preserves presence of any package. -/
theorem lookup_addPackage_mono (g : DependencyGraph) (n x : String)
    (h : ((g.nodes.lookup x).isSome) = true) :
    (((g.addPackage n).nodes.lookup x).isSome) = true := by
  unfold DependencyGraph.addPackage
  by_cases hn : ((g.nodes.lookup n).isSome) = true
  · rw [if_pos hn]; exact h
  · rw [if_neg hn]
    show ((g.nodes ++ [(n, (⟨n, [], []⟩ : DependencyNode))]).lookup x).isSome = true
    rw [List.lookup_append]
    cases he : g.nodes.lookup x with
    | none => rw [he] at h; simp at h
    | some v => simp

/-- `addPackage` does not change any dependency list. -/
theorem getDependencies_addPackage (g : DependencyGraph) (n x : String) :
    (g.addPackage n).getDependencies x = g.getDependencies x := by
  unfold DependencyGraph.addPackage
  by_cases h : ((g.nodes.lookup n).isSome) = true
  · rw [if_pos h]
  · rw [if_neg h]
    show DependencyGraph.getDependencies
      (⟨g.nodes ++ [(n, ⟨n, [], []⟩)]⟩ : DependencyGraph) x = g.getDependencies x
    unfold DependencyGraph.getDependencies
    simp only
    rw [List.lookup_append]
    cases he : g.nodes.lookup x with
    | none =>
      simp only [Option.none_or]
      rw [lookup_cons_if]
      by_cases hx : x = n
      · subst hx; simp
      · simp [hx]
    | some v => simp

/-- `addPackage` does not change any dependent list. -/
theorem getDependents_addPackage (g : DependencyGraph) (n x : String) :
    (g.addPackage n).getDependents x = g.getDependents x := by
  unfold DependencyGraph.addPackage
  by_cases h : ((g.nodes.lookup n).isSome) = true
  · rw [if_pos h]
  · rw [if_neg h]
    show DependencyGraph.getDependents
      (⟨g.nodes ++ [(n, ⟨n, [], []⟩)]⟩ : DependencyGraph) x = g.getDependents x
    unfold DependencyGraph.getDependents
    simp only
    rw [List.lookup_append]
    cases he : g.nodes.lookup x with
    | none =>
      simp only [Option.none_or]
      rw [lookup_cons_if]
      by_cases hx : x = n
      · subst hx; simp
      · simp [hx]
    | some v => simp

/-- The two `Set.add` mutations leave every `dependencies` field as the
package branch alone determines it. -/
theorem edgeUpdate_dependencies (p d x : String) (node : DependencyNode) :
    (edgeUpdate p d x node).dependencies =
      if x = p then setAdd node.dependencies d else node.dependencies := by
  unfold edgeUpdate
  split <;> split <;> rfl

/-- The two `Set.add` mutations leave every `dependents` field as the
dependency branch alone determines it. -/
theorem edgeUpdate_dependents (p d x : String) (node : DependencyNode) :
    (edgeUpdate p d x node).dependents =
      if x = d then setAdd node.dependents p else node.dependents := by
  unfold edgeUpdate
  split <;> split <;> rfl

/-- Reading `getDependencies` after `addDependency` through the mapped
node list. -/
theorem getDependencies_addDependency_match (g : DependencyGraph)
    (p d x : String) :
    (g.addDependency p d).getDependencies x =
      match ((g.addPackage p).addPackage d).nodes.lookup x with
      | some node => (edgeUpdate p d x node).dependencies
      | none => [] := by
  show DependencyGraph.getDependencies
    (⟨((g.addPackage p).addPackage d).nodes.map
      (fun kv => (kv.1, edgeUpdate p d kv.1 kv.2))⟩ : DependencyGraph) x = _
  unfold DependencyGraph.getDependencies
  simp only
  rw [lookup_map_keyed]
  cases ((g.addPackage p).addPackage d).nodes.lookup x <;> rfl

/-- Reading `getDependents` after `addDependency` through the mapped
node list. -/
theorem getDependents_addDependency_match (g : DependencyGraph)
    (p d x : String) :
    (g.addDependency p d).getDependents x =
      match ((g.addPackage p).addPackage d).nodes.lookup x with
      | some node => (edgeUpdate p d x node).dependents
      | none => [] := by
  show DependencyGraph.getDependents
    (⟨((g.addPackage p).addPackage d).nodes.map
      (fun kv => (kv.1, edgeUpdate p d kv.1 kv.2))⟩ : DependencyGraph) x = _
  unfold DependencyGraph.getDependents
  simp only
  rw [lookup_map_keyed]
  cases ((g.addPackage p).addPackage d).nodes.lookup x <;> rfl

/-- The dependency lists after `addDependency`: `d` joins the dependency
set of `p`; every other dependency list is unchanged. -/
theorem getDependencies_addDependency (g : DependencyGraph) (p d x : String) :
    (g.addDependency p d).getDependencies x =
      if x = p then setAdd (g.getDependencies p) d else g.getDependencies x := by
  have hps : ((((g.addPackage p).addPackage d).nodes.lookup p).isSome) = true :=
    lookup_addPackage_mono _ d p (lookup_addPackage_self g p)
  have hgg : ∀ z, ((g.addPackage p).addPackage d).getDependencies z =
      g.getDependencies z := by
    intro z
    rw [getDependencies_addPackage, getDependencies_addPackage]
  rw [getDependencies_addDependency_match]
  cases he : ((g.addPackage p).addPackage d).nodes.lookup x with
  | none =>
    show ([] : List String) =
      if x = p then setAdd (g.getDependencies p) d else g.getDependencies x
    by_cases hx : x = p
    · subst hx; rw [he] at hps; simp at hps
    · rw [if_neg hx]
      have hg1 : ((g.addPackage p).addPackage d).getDependencies x = [] := by
        unfold DependencyGraph.getDependencies
        rw [he]
      rw [← hgg x, hg1]
  | some node =>
    show (edgeUpdate p d x node).dependencies =
      if x = p then setAdd (g.getDependencies p) d else g.getDependencies x
    have hg1 : ((g.addPackage p).addPackage d).getDependencies x =
        node.dependencies := by
      unfold DependencyGraph.getDependencies
      rw [he]
    rw [edgeUpdate_dependencies]
    by_cases hx : x = p
    · rw [if_pos hx, if_pos hx]
      have hnode : node.dependencies = g.getDependencies p := by
        rw [← hx, ← hgg x, hg1]
      rw [hnode]
    · rw [if_neg hx, if_neg hx, ← hgg x, hg1]

/-- The dependent lists after `addDependency`: `p` joins the dependent
set of `d`; every other dependent list is unchanged. -/
theorem getDependents_addDependency (g : DependencyGraph) (p d x : String) :
    (g.addDependency p d).getDependents x =
      if x = d then setAdd (g.getDependents d) p else g.getDependents x := by
  have hds : ((((g.addPackage p).addPackage d).nodes.lookup d).isSome) = true :=
    lookup_addPackage_self (g.addPackage p) d
  have hgg : ∀ z, ((g.addPackage p).addPackage d).getDependents z =
      g.getDependents z := by
    intro z
    rw [getDependents_addPackage, getDependents_addPackage]
  rw [getDependents_addDependency_match]
  cases he : ((g.addPackage p).addPackage d).nodes.lookup x with
  | none =>
    show ([] : List String) =
      if x = d then setAdd (g.getDependents d) p else g.getDependents x
    by_cases hx : x = d
    · subst hx; rw [he] at hds; simp at hds
    · rw [if_neg hx]
      have hg1 : ((g.addPackage p).addPackage d).getDependents x = [] := by
        unfold DependencyGraph.getDependents
        rw [he]
      rw [← hgg x, hg1]
  | some node =>
    show (edgeUpdate p d x node).dependents =
      if x = d then setAdd (g.getDependents d) p else g.getDependents x
    have hg1 : ((g.addPackage p).addPackage d).getDependents x =
        node.dependents := by
      unfold DependencyGraph.getDependents
      rw [he]
    rw [edgeUpdate_dependents]
    by_cases hx : x = d
    · rw [if_pos hx, if_pos hx]
      have hnode : node.dependents = g.getDependents d := by
        rw [← hx, ← hgg x, hg1]
      rw [hnode]
    · rw [if_neg hx, if_neg hx, ← hgg x, hg1]

/-- **C9**.  After any sequence of `addPackage`/`addDependency` calls on
a fresh `DependencyGraph`, for all names `x`, `y`: `dependents(x)`
contains `y` iff `dependencies(y)` contains `x`. -/
theorem dependents_iff_dependencies (ops : List GraphOp) (x y : String) :
    y ∈ (applyOps DependencyGraph.empty ops).getDependents x ↔
      x ∈ (applyOps DependencyGraph.empty ops).getDependencies y := by
  have main : ∀ (ops : List GraphOp) (g : DependencyGraph),
      (∀ a b, b ∈ g.getDependents a ↔ a ∈ g.getDependencies b) →
      ∀ a b, b ∈ (applyOps g ops).getDependents a ↔
        a ∈ (applyOps g ops).getDependencies b := by
    intro ops
    induction ops with
    | nil => intro g hg; exact hg
    | cons op rest ih =>
      intro g hg
      apply ih
      cases op with
      | addPackage n =>
        intro a b
        rw [show applyOp g (GraphOp.addPackage n) = g.addPackage n from rfl]
        rw [getDependents_addPackage, getDependencies_addPackage]
        exact hg a b
      | addDependency p d =>
        intro a b
        rw [show applyOp g (GraphOp.addDependency p d) = g.addDependency p d from rfl]
        rw [getDependents_addDependency, getDependencies_addDependency]
        by_cases ha : a = d
        · by_cases hb : b = p
          · rw [if_pos ha, if_pos hb, ha, hb]
            simp [mem_setAdd]
          · rw [if_pos ha, if_neg hb, ha]
            simp only [mem_setAdd, hb, or_false]
            exact hg d b
        · by_cases hb : b = p
          · rw [if_neg ha, if_pos hb, hb]
            simp only [mem_setAdd, ha, or_false]
            exact hg a p
          · rw [if_neg ha, if_neg hb]
            exact hg a b
  apply main ops DependencyGraph.empty
  intro a b
  simp [DependencyGraph.getDependents, DependencyGraph.getDependencies,
    DependencyGraph.empty, List.lookup]

/-! ## Build cache: update/isValid round trip (C6) -/

/-- `lookup` after the in-place entry replacement of `Map.set`. -/
theorem lookup_map_setEntry (m : List (String × CacheEntry)) (k : String)
    (v : CacheEntry) (x : String) :
    (m.map (fun e => if e.1 = k then (k, v) else e)).lookup x =
      if x = k then (m.lookup k).map (fun _ => v) else m.lookup x := by
  induction m with
  | nil =>
    by_cases hx : x = k
    · subst hx; simp
    · simp [hx]
  | cons e t ih =>
    obtain ⟨k1, v1⟩ := e
    simp only [List.map_cons]
    by_cases h1 : k1 = k
    · rw [if_pos (show ((k1, v1) : String × CacheEntry).1 = k from h1)]
      simp only [lookup_cons_if]
      by_cases hx : x = k
      · rw [if_pos hx, if_pos hx, if_pos h1.symm]
        rfl
      · rw [if_neg hx, if_neg hx, ih, if_neg hx,
          if_neg (fun hh : x = k1 => hx (hh.trans h1))]
    · rw [if_neg (show ¬ ((k1, v1) : String × CacheEntry).1 = k from h1)]
      simp only [lookup_cons_if]
      by_cases hx : x = k1
      · have hxk : ¬ x = k := fun hh => h1 (hx.symm.trans hh)
        rw [if_pos hx, if_neg hxk, if_pos hx]
      · rw [if_neg hx, ih]
        by_cases hxk : x = k
        · rw [if_pos hxk, if_pos hxk, if_neg (fun hh : k = k1 => h1 hh.symm)]
        · rw [if_neg hxk, if_neg hxk, if_neg hx]

/-- `lookup` after `Map.set`. -/
theorem lookup_mapSet (m : List (String × CacheEntry)) (k : String)
    (v : CacheEntry) (x : String) :
    (mapSet m k v).lookup x = if x = k then some v else m.lookup x := by
  unfold mapSet
  by_cases hk : ((m.lookup k).isSome) = true
  · rw [if_pos hk, lookup_map_setEntry]
    by_cases hx : x = k
    · subst hx
      rw [if_pos rfl, if_pos rfl]
      cases he : m.lookup x with
      | none => rw [he] at hk; simp at hk
      | some w => rfl
    · rw [if_neg hx, if_neg hx]
  · rw [if_neg hk]
    have hnone : m.lookup k = none := by
      cases he : m.lookup k with
      | none => rfl
      | some w => rw [he] at hk; simp at hk
    rw [List.lookup_append, lookup_cons_if]
    by_cases hx : x = k
    · subst hx
      rw [if_pos rfl, if_pos rfl, hnone]
      rfl
    · rw [if_neg hx, if_neg hx]
      cases he : m.lookup x with
      | none => rfl
      | some w => rfl

/-- The input hash only reads the cache through the dependency lookups,
so caches agreeing on the declared dependencies give the same hash. -/
theorem calculatePackageHash_congr (env : CacheEnv)
    (c1 c2 : List (String × CacheEntry)) (pkg : PackageInfo)
    (pm : List (String × PackageInfo))
    (h : ∀ depName ∈ pkg.dependencies ++ pkg.devDependencies,
      c1.lookup depName = c2.lookup depName) :
    calculatePackageHash env c1 pkg pm = calculatePackageHash env c2 pkg pm := by
  unfold calculatePackageHash
  have hmap : (pkg.dependencies ++ pkg.devDependencies).map (fun depName =>
      match c1.lookup depName with
      | some depEntry => depName ++ ":" ++ depEntry.inputHash
      | none => depName ++ ":MISSING") =
    (pkg.dependencies ++ pkg.devDependencies).map (fun depName =>
      match c2.lookup depName with
      | some depEntry => depName ++ ":" ++ depEntry.inputHash
      | none => depName ++ ":MISSING") := by
    apply List.map_congr_left
    intro depName hdep
    rw [h depName hdep]
  rw [hmap]

/-- **C6** (amended).  If `P` does not list itself among its
dependencies or devDependencies, then immediately after
`update(P, packageMap, duration)` — with no source file, manifest file,
file index or dependency cache entry mutated in between —
`isValid(P, packageMap)` returns `true`. -/
theorem update_isValid_round_trip (env : CacheEnv) (st : CacheState)
    (pkg : PackageInfo) (pm : List (String × PackageInfo))
    (buildDuration : Nat) (now : String)
    (hself : pkg.name ∉ pkg.dependencies ++ pkg.devDependencies) :
    isValid env (update env st pkg pm buildDuration now) pkg pm = true := by
  have hlookup : (update env st pkg pm buildDuration now).packageCaches.lookup
      pkg.name = some
      { inputHash := calculatePackageHash env st.packageCaches pkg pm,
        dependencyHashes := (pkg.dependencies ++ pkg.devDependencies).map
          (fun depName =>
            (depName, (st.packageCaches.lookup depName).map (·.inputHash))),
        lastBuild := now, buildDuration := buildDuration, builtBy := "wsu" } := by
    show (mapSet st.packageCaches pkg.name _).lookup pkg.name = _
    rw [lookup_mapSet, if_pos rfl]
  have hhash : calculatePackageHash env
      (update env st pkg pm buildDuration now).packageCaches pkg pm =
      calculatePackageHash env st.packageCaches pkg pm := by
    apply calculatePackageHash_congr
    intro depName hdep
    show (mapSet st.packageCaches pkg.name _).lookup depName = _
    rw [lookup_mapSet, if_neg (by intro hh; exact hself (hh ▸ hdep))]
  unfold isValid
  rw [hlookup]
  show (calculatePackageHash env st.packageCaches pkg pm ==
    calculatePackageHash env
      (update env st pkg pm buildDuration now).packageCaches pkg pm) = true
  rw [hhash]
  simp

/-- Counterexample to **C6** as stated: a package that lists itself as a
dependency.  `update` stores a hash computed from the *old* dependency
entry (`a:MISSING`), after which the recomputation inside `isValid` sees
the *new* entry and produces a different hash — with nothing mutated in
between. -/
theorem update_isValid_self_dep_cex :
    isValid envConst (update envConst emptyCache pkgSelf [] 5 ("t"))
      pkgSelf [] = false := by
  decide

/-- Witness for **C6**: the amended round trip at a concrete package. -/
theorem update_isValid_round_trip_witness :
    pkgB.name ∉ pkgB.dependencies ++ pkgB.devDependencies ∧
      isValid envConst (update envConst emptyCache pkgB [] 7 ("t"))
        pkgB [] = true :=
  ⟨by decide,
    update_isValid_round_trip envConst emptyCache pkgB [] 7 ("t") (by decide)⟩

/-! ## Build cache: dependent invalidation (C2) -/

/-- `lookup` after deleting a key (`Map.delete` as filtering the key
out). -/
theorem lookup_filter_ne (m : List (String × CacheEntry)) (x y : String) :
    (m.filter (fun e => !(e.1 == x))).lookup y =
      if y = x then none else m.lookup y := by
  induction m with
  | nil =>
    by_cases hy : y = x
    · simp [hy]
    · simp [hy]
  | cons e t ih =>
    obtain ⟨k1, v1⟩ := e
    rw [List.filter_cons]
    by_cases hk : k1 = x
    · rw [if_neg (by simp [hk])]
      rw [ih]
      by_cases hy : y = x
      · rw [if_pos hy, if_pos hy]
      · rw [if_neg hy, if_neg hy, lookup_cons_if,
          if_neg (fun hh : y = k1 => hy (hh.trans hk))]
    · rw [if_pos (by simp [hk])]
      rw [lookup_cons_if, lookup_cons_if]
      by_cases hy : y = k1
      · have hyx : ¬ y = x := fun hh => hk (hy.symm.trans hh)
        rw [if_pos hy, if_neg hyx, if_pos hy]
      · rw [if_neg hy, if_neg hy, ih]

/-- The cache membership after `invalidatePackage`. -/
theorem hasEntry_invalidatePackage (st : CacheState) (x y : String) :
    hasEntry (invalidatePackage st x) y =
      if y = x then false else hasEntry st y := by
  unfold hasEntry invalidatePackage
  simp only
  rw [lookup_filter_ne]
  by_cases hy : y = x
  · rw [if_pos hy, if_pos hy]
    rfl
  · rw [if_neg hy, if_neg hy]

/-- The invalidation loop never creates cache entries. -/
theorem hasEntry_invalidateDependentsGo_mono
    (recur : CacheState → String → CacheState)
    (hrec : ∀ st x y, hasEntry (recur st x) y = true → hasEntry st y = true) :
    ∀ (ds : List PackageInfo) (st : CacheState) (y : String),
      hasEntry (invalidateDependentsGo recur st ds) y = true →
      hasEntry st y = true := by
  intro ds
  induction ds with
  | nil => intro st y h; exact h
  | cons d rest ih =>
    intro st y h
    unfold invalidateDependentsGo at h
    by_cases hd : hasEntry st d.name = true
    · rw [if_pos hd] at h
      have h2 := hrec _ _ _ (ih _ y h)
      rw [hasEntry_invalidatePackage] at h2
      by_cases hy : y = d.name
      · rw [if_pos hy] at h2
        exact absurd h2 (by simp)
      · rw [if_neg hy] at h2
        exact h2
    · rw [if_neg hd] at h
      exact ih _ y h

/-- `invalidateDependents` never creates cache entries. -/
theorem hasEntry_invalidateDependents_mono (packages : List PackageInfo) :
    ∀ (fuel : Nat) (st : CacheState) (x y : String),
      hasEntry (invalidateDependents packages fuel st x) y = true →
      hasEntry st y = true := by
  intro fuel
  induction fuel with
  | zero => intro st x y h; exact h
  | succ f ih =>
    intro st x y h
    unfold invalidateDependents at h
    exact hasEntry_invalidateDependentsGo_mono _ (fun st x y => ih st x y)
      _ st y h

/-- A missing entry stays missing across the invalidation loop. -/
theorem hasEntry_invalidateDependentsGo_false
    (recur : CacheState → String → CacheState)
    (hrec : ∀ st x y, hasEntry (recur st x) y = true → hasEntry st y = true)
    (ds : List PackageInfo) (st : CacheState) (y : String)
    (h : hasEntry st y = false) :
    hasEntry (invalidateDependentsGo recur st ds) y = false := by
  cases hres : hasEntry (invalidateDependentsGo recur st ds) y with
  | false => rfl
  | true =>
    have := hasEntry_invalidateDependentsGo_mono recur hrec ds st y hres
    rw [h] at this
    exact absurd this (by simp)

/-- A missing entry stays missing across `invalidateDependents`. -/
theorem hasEntry_invalidateDependents_false (packages : List PackageInfo)
    (fuel : Nat) (st : CacheState) (x y : String)
    (h : hasEntry st y = false) :
    hasEntry (invalidateDependents packages fuel st x) y = false := by
  cases hres : hasEntry (invalidateDependents packages fuel st x) y with
  | false => rfl
  | true =>
    have := hasEntry_invalidateDependents_mono packages fuel st x y hres
    rw [h] at this
    exact absurd this (by simp)

/-- After the loop has walked over a dependent, its entry is gone for
good. -/
theorem hasEntry_invalidateDependentsGo_dependent
    (recur : CacheState → String → CacheState)
    (hrec : ∀ st x y, hasEntry (recur st x) y = true → hasEntry st y = true) :
    ∀ (ds : List PackageInfo) (st : CacheState) (d : PackageInfo), d ∈ ds →
      hasEntry (invalidateDependentsGo recur st ds) d.name = false := by
  intro ds
  induction ds with
  | nil => intro st d h; simp at h
  | cons e rest ih =>
    intro st d hmem
    unfold invalidateDependentsGo
    rcases List.mem_cons.mp hmem with heq | hmem'
    · subst heq
      by_cases hd : hasEntry st d.name = true
      · rw [if_pos hd]
        have hnot : hasEntry (recur (invalidatePackage st d.name) d.name)
            d.name = false := by
          cases hcase : hasEntry (recur (invalidatePackage st d.name) d.name)
              d.name with
          | false => rfl
          | true =>
            have := hrec _ _ _ hcase
            rw [hasEntry_invalidatePackage, if_pos rfl] at this
            exact absurd this (by simp)
        exact hasEntry_invalidateDependentsGo_false recur hrec rest _ _ hnot
      · rw [if_neg hd]
        exact hasEntry_invalidateDependentsGo_false recur hrec rest _ _
          (by simpa using hd)
    · by_cases hd : hasEntry st e.name = true
      · rw [if_pos hd]
        exact ih _ d hmem'
      · rw [if_neg hd]
        exact ih _ d hmem'

/-- Lemma B: after `invalidateDependents(x)` with any positive fuel, no
direct dependent of `x` retains a cache entry. -/
theorem invalidateDependents_direct (packages : List PackageInfo)
    (fuel : Nat) (hfuel : 1 ≤ fuel) (st : CacheState) (x : String)
    (d : PackageInfo) (hd : d ∈ packages) (hlists : listsAsDep d x = true) :
    hasEntry (invalidateDependents packages fuel st x) d.name = false := by
  cases fuel with
  | zero => exact absurd hfuel (by omega)
  | succ f =>
    unfold invalidateDependents
    exact hasEntry_invalidateDependentsGo_dependent _
      (fun st x y => hasEntry_invalidateDependents_mono packages f st x y)
      _ st d (List.mem_filter.mpr ⟨hd, hlists⟩)

/-- `invalidatePackage` never grows the cache. -/
theorem length_invalidatePackage_le (st : CacheState) (x : String) :
    (invalidatePackage st x).packageCaches.length ≤
      st.packageCaches.length :=
  List.length_filter_le _ _

/-- `invalidatePackage` of a cached package strictly shrinks the
cache. -/
theorem length_invalidatePackage_lt (st : CacheState) (x : String)
    (h : hasEntry st x = true) :
    (invalidatePackage st x).packageCaches.length <
      st.packageCaches.length := by
  apply List.length_filter_lt_length_iff_exists.mpr
  unfold hasEntry at h
  rw [List.lookup_isSome_iff] at h
  obtain ⟨p, hp, hbeq⟩ := h
  have hpx : p.1 = x := (eq_of_beq hbeq).symm
  exact ⟨p, hp, by simp [hpx]⟩

/-- The invalidation loop never grows the cache. -/
theorem length_invalidateDependentsGo_le
    (recur : CacheState → String → CacheState)
    (hrec : ∀ st x,
      (recur st x).packageCaches.length ≤ st.packageCaches.length) :
    ∀ (ds : List PackageInfo) (st : CacheState),
      (invalidateDependentsGo recur st ds).packageCaches.length ≤
        st.packageCaches.length := by
  intro ds
  induction ds with
  | nil => intro st; exact Nat.le_refl _
  | cons d rest ih =>
    intro st
    unfold invalidateDependentsGo
    by_cases hd : hasEntry st d.name = true
    · rw [if_pos hd]
      exact le_trans (ih _)
        (le_trans (hrec _ _) (length_invalidatePackage_le st d.name))
    · rw [if_neg hd]
      exact ih st

/-- `invalidateDependents` never grows the cache. -/
theorem length_invalidateDependents_le (packages : List PackageInfo) :
    ∀ (fuel : Nat) (st : CacheState) (x : String),
      (invalidateDependents packages fuel st x).packageCaches.length ≤
        st.packageCaches.length := by
  intro fuel
  induction fuel with
  | zero => intro st x; exact Nat.le_refl _
  | succ f ih =>
    intro st x
    unfold invalidateDependents
    exact length_invalidateDependentsGo_le _ (fun st x => ih st x) _ st

/-- Lemma D: whenever a call of `invalidateDependents` with sufficient
fuel removes a cached package `y`, it also removes every direct
dependent of `y` — because each removal is immediately followed by the
recursive walk over the removed package's dependents. -/
theorem invalidateDependents_propagates (packages : List PackageInfo) :
    ∀ (fuel : Nat) (st : CacheState) (x y : String),
      st.packageCaches.length + 1 ≤ fuel →
      hasEntry st y = true →
      hasEntry (invalidateDependents packages fuel st x) y = false →
      ∀ d ∈ packages, listsAsDep d y = true →
        hasEntry (invalidateDependents packages fuel st x) d.name = false := by
  intro fuel
  induction fuel with
  | zero =>
    intro st x y hf _ _ d _ _
    exact absurd hf (by omega)
  | succ f ih =>
    intro st x y hf hy hrem d hd hld
    have hrecmono : ∀ st x y,
        hasEntry (invalidateDependents packages f st x) y = true →
        hasEntry st y = true :=
      fun st x y => hasEntry_invalidateDependents_mono packages f st x y
    have loop : ∀ (ds : List PackageInfo) (st0 : CacheState),
        st0.packageCaches.length ≤ f →
        hasEntry st0 y = true →
        hasEntry (invalidateDependentsGo (invalidateDependents packages f)
          st0 ds) y = false →
        hasEntry (invalidateDependentsGo (invalidateDependents packages f)
          st0 ds) d.name = false := by
      intro ds
      induction ds with
      | nil =>
        intro st0 _ hy0 hrem0
        unfold invalidateDependentsGo at hrem0
        rw [hy0] at hrem0
        exact absurd hrem0 (by simp)
      | cons e rest ihds =>
        intro st0 hlen hy0 hrem0
        unfold invalidateDependentsGo at hrem0 ⊢
        by_cases hcond : hasEntry st0 e.name = true
        · rw [if_pos hcond] at hrem0 ⊢
          by_cases h1 : hasEntry (invalidateDependents packages f
              (invalidatePackage st0 e.name) e.name) y = true
          · refine ihds _ ?_ h1 hrem0
            calc (invalidateDependents packages f
                  (invalidatePackage st0 e.name) e.name).packageCaches.length
                ≤ (invalidatePackage st0 e.name).packageCaches.length :=
                  length_invalidateDependents_le packages f _ e.name
              _ ≤ st0.packageCaches.length := length_invalidatePackage_le st0 e.name
              _ ≤ f := hlen
          · have h1f : hasEntry (invalidateDependents packages f
                (invalidatePackage st0 e.name) e.name) y = false := by
              simpa using h1
            have hpos : 1 ≤ st0.packageCaches.length := by
              have hlt := length_invalidatePackage_lt st0 e.name hcond
              omega
            by_cases hye : y = e.name
            · have hld' : listsAsDep d e.name = true := hye ▸ hld
              have hdead : hasEntry (invalidateDependents packages f
                  (invalidatePackage st0 e.name) e.name) d.name = false :=
                invalidateDependents_direct packages f (by omega) _ e.name
                  d hd hld'
              exact hasEntry_invalidateDependentsGo_false _ hrecmono rest _ _
                hdead
            · have hy1 : hasEntry (invalidatePackage st0 e.name) y = true := by
                rw [hasEntry_invalidatePackage, if_neg hye]
                exact hy0
              have hlen1 :
                  (invalidatePackage st0 e.name).packageCaches.length + 1 ≤
                    f := by
                have hlt := length_invalidatePackage_lt st0 e.name hcond
                omega
              have hdead : hasEntry (invalidateDependents packages f
                  (invalidatePackage st0 e.name) e.name) d.name = false :=
                ih (invalidatePackage st0 e.name) e.name y hlen1 hy1 h1f
                  d hd hld
              exact hasEntry_invalidateDependentsGo_false _ hrecmono rest _ _
                hdead
        · rw [if_neg hcond] at hrem0 ⊢
          exact ihds st0 hlen hy0 hrem0
    unfold invalidateDependents at hrem ⊢
    exact loop _ st (by omega) hy hrem

/-- **C2** (amended).  After `invalidateDependents(P, packages)`, no
workspace package that lists `P` as a dependency or devDependency —
directly, or transitively through intermediate workspace packages each
of which held a cache entry — retains a cache entry: the removed set is
closed under the reverse-edge walk restricted to cached packages (the
walk does not recurse through a dependent that had no cache entry).
Fuel `|packageCaches| + 1` bounds the recursion depth, since every
recursive call follows a removal. -/
theorem invalidateDependents_removes_reachable_cached
    (packages : List PackageInfo) (st : CacheState) (packageName : String)
    (fuel : Nat) (hfuel : st.packageCaches.length + 1 ≤ fuel)
    (q : String) (hq : ReachCached packages st packageName q) :
    hasEntry (invalidateDependents packages fuel st packageName) q = false := by
  induction hq with
  | direct p hp hl =>
    exact invalidateDependents_direct packages fuel (by omega) st packageName
      p hp hl
  | step p mid hmid hcached hp hl ihmid =>
    exact invalidateDependents_propagates packages fuel st packageName mid
      hfuel hcached ihmid p hp hl

/-- Counterexample to **C2** as stated: `E` lists `P` transitively (via
`D`), but `D` holds no cache entry, so the walk never reaches `E` and
`E` retains its entry. -/
theorem invalidateDependents_transitive_cex :
    ListsTrans [pkgD, pkgE] ("P") ("E") ∧
      hasEntry (invalidateDependents [pkgD, pkgE]
        (stOnlyE.packageCaches.length + 1) stOnlyE ("P")) ("E") = true := by
  constructor
  · have h1 : ListsTrans [pkgD, pkgE] ("P") pkgD.name :=
      ListsTrans.direct pkgD (by simp) (by decide)
    have h2 : ListsTrans [pkgD, pkgE] ("P") pkgE.name :=
      ListsTrans.step pkgE pkgD.name h1 (by simp) (by decide)
    exact h2
  · decide

/-- Witness for **C2**: with the intermediate `D` cached, the amended
walk does remove the transitive dependent `E`. -/
theorem invalidateDependents_removes_reachable_cached_witness :
    stDE.packageCaches.length + 1 ≤ 3 ∧
      hasEntry (invalidateDependents [pkgD, pkgE] 3 stDE ("P")) ("E") =
        false := by
  refine ⟨by decide, ?_⟩
  have h1 : ReachCached [pkgD, pkgE] stDE ("P") pkgD.name :=
    ReachCached.direct pkgD (by simp) (by decide)
  have h2 : ReachCached [pkgD, pkgE] stDE ("P") pkgE.name :=
    ReachCached.step pkgE pkgD.name h1 (by decide) (by simp) (by decide)
  exact invalidateDependents_removes_reachable_cached [pkgD, pkgE] stDE ("P")
    3 (by decide) ("E") h2

/-! ## Dependency graph: topological sort on a DAG (C3) -/

/-- A successful `lookup` comes from an entry of the list. -/
theorem mem_of_lookup_eq_some {β : Type} (l : List (String × β)) (k : String)
    (v : β) (h : l.lookup k = some v) : (k, v) ∈ l := by
  induction l with
  | nil => simp [List.lookup] at h
  | cons e t ih =>
    obtain ⟨k1, v1⟩ := e
    rw [lookup_cons_if] at h
    by_cases hk : k = k1
    · rw [if_pos hk] at h
      injection h with h
      rw [hk, h]
      exact List.mem_cons_self _ _
    · rw [if_neg hk] at h
      exact List.mem_cons_of_mem _ (ih h)

/-- `lookup` succeeds exactly on the keys. -/
theorem lookup_isSome_iff_mem_keys {β : Type} (l : List (String × β))
    (x : String) :
    ((l.lookup x).isSome) = true ↔ x ∈ l.map Prod.fst := by
  rw [List.lookup_isSome_iff]
  constructor
  · rintro ⟨p, hp, hbeq⟩
    rw [eq_of_beq hbeq]
    exact List.mem_map_of_mem Prod.fst hp
  · intro hx
    rw [List.mem_map] at hx
    obtain ⟨p, hp, hfst⟩ := hx
    exact ⟨p, hp, by rw [hfst]; simp⟩

/-- With duplicate-free keys, membership determines `lookup`. -/
theorem lookup_eq_of_mem_nodup {β : Type} (l : List (String × β))
    (hnd : (l.map Prod.fst).Nodup) (k : String) (v : β)
    (h : (k, v) ∈ l) : l.lookup k = some v := by
  induction l with
  | nil => simp at h
  | cons e t ih =>
    obtain ⟨k1, v1⟩ := e
    rw [List.map_cons, List.nodup_cons] at hnd
    rw [lookup_cons_if]
    rcases List.mem_cons.mp h with heq | hmem
    · rw [Prod.mk.injEq] at heq
      rw [if_pos heq.1, heq.2]
    · by_cases hk : k = k1
      · exfalso
        apply hnd.1
        rw [← hk]
        exact List.mem_map.mpr ⟨(k, v), hmem, rfl⟩
      · rw [if_neg hk]
        exact ih hnd.2 hmem

/-- Mirror of the edge sets, derived from well-formedness. -/
theorem wf_mirror (g : DependencyGraph) (hwf : g.WF) (x y : String) :
    y ∈ g.getDependents x ↔ x ∈ g.getDependencies y := by
  obtain ⟨_, _, _, hdeps, hdepd⟩ := hwf
  constructor
  · intro h
    unfold DependencyGraph.getDependents at h
    cases he : g.nodes.lookup x with
    | none => rw [he] at h; simp at h
    | some node =>
      rw [he] at h
      exact (hdepd (x, node) (mem_of_lookup_eq_some _ _ _ he) y h).2
  · intro h
    unfold DependencyGraph.getDependencies at h
    cases he : g.nodes.lookup y with
    | none => rw [he] at h; simp at h
    | some node =>
      rw [he] at h
      exact (hdeps (y, node) (mem_of_lookup_eq_some _ _ _ he) x h).2

/-- Dependency lists are duplicate-free in a well-formed graph. -/
theorem wf_deps_nodup (g : DependencyGraph) (hwf : g.WF) (x : String) :
    (g.getDependencies x).Nodup := by
  unfold DependencyGraph.getDependencies
  cases he : g.nodes.lookup x with
  | none => simp
  | some node =>
    exact hwf.2.1 (x, node) (mem_of_lookup_eq_some _ _ _ he)

/-- Dependent lists are duplicate-free in a well-formed graph. -/
theorem wf_dependents_nodup (g : DependencyGraph) (hwf : g.WF) (x : String) :
    (g.getDependents x).Nodup := by
  unfold DependencyGraph.getDependents
  cases he : g.nodes.lookup x with
  | none => simp
  | some node =>
    exact hwf.2.2.1 (x, node) (mem_of_lookup_eq_some _ _ _ he)

/-- Dependencies stay inside the node set in a well-formed graph. -/
theorem wf_deps_keys (g : DependencyGraph) (hwf : g.WF) (x : String) :
    ∀ d ∈ g.getDependencies x, d ∈ g.getPackages := by
  intro d hd
  unfold DependencyGraph.getDependencies at hd
  cases he : g.nodes.lookup x with
  | none => rw [he] at hd; simp at hd
  | some node =>
    rw [he] at hd
    exact (hwf.2.2.2.1 (x, node) (mem_of_lookup_eq_some _ _ _ he) d hd).1

/-- Dependents stay inside the node set in a well-formed graph. -/
theorem wf_dependents_keys (g : DependencyGraph) (hwf : g.WF) (x : String) :
    ∀ y ∈ g.getDependents x, y ∈ g.getPackages := by
  intro y hy
  unfold DependencyGraph.getDependents at hy
  cases he : g.nodes.lookup x with
  | none => rw [he] at hy; simp at hy
  | some node =>
    rw [he] at hy
    exact (hwf.2.2.2.2 (x, node) (mem_of_lookup_eq_some _ _ _ he) y hy).1

/-- The in-degree component of the dependent fold: each listed node is
decremented once. -/
theorem kahnFold_deg (l : List String) (hnd : l.Nodup) :
    ∀ (inDeg : String → Int) (queue : List String) (x : String),
      (l.foldl kahnVisit (inDeg, queue)).1 x =
        if x ∈ l then inDeg x - 1 else inDeg x := by
  induction l with
  | nil => intro inDeg queue x; simp
  | cons a t ih =>
    intro inDeg queue x
    rw [List.nodup_cons] at hnd
    rw [List.foldl_cons]
    rw [show kahnVisit (inDeg, queue) a =
      (fun z => if z = a then inDeg a - 1 else inDeg z,
       if inDeg a - 1 = 0 then queue ++ [a] else queue) from rfl]
    rw [ih hnd.2]
    by_cases hx : x ∈ t
    · have hxa : ¬ x = a := fun hh => hnd.1 (hh ▸ hx)
      rw [if_pos hx, if_pos (List.mem_cons_of_mem a hx)]
      simp only [if_neg hxa]
    · rw [if_neg hx]
      by_cases hxa : x = a
      · rw [if_pos hxa, if_pos (by rw [hxa]; exact List.mem_cons_self a t)]
        rw [hxa]
      · rw [if_neg hxa,
          if_neg (fun hh => (List.mem_cons.mp hh).elim hxa hx)]

/-- The queue component of the dependent fold: the nodes whose
decremented in-degree is `0` are appended in list order. -/
theorem kahnFold_queue (l : List String) (hnd : l.Nodup) :
    ∀ (inDeg : String → Int) (queue : List String),
      (l.foldl kahnVisit (inDeg, queue)).2 =
        queue ++ l.filter (fun y => inDeg y - 1 == 0) := by
  induction l with
  | nil => intro inDeg queue; simp
  | cons a t ih =>
    intro inDeg queue
    rw [List.nodup_cons] at hnd
    rw [List.foldl_cons]
    rw [show kahnVisit (inDeg, queue) a =
      (fun z => if z = a then inDeg a - 1 else inDeg z,
       if inDeg a - 1 = 0 then queue ++ [a] else queue) from rfl]
    rw [ih hnd.2]
    have hfe : t.filter (fun y =>
        (fun z => if z = a then inDeg a - 1 else inDeg z) y - 1 == 0) =
        t.filter (fun y => inDeg y - 1 == 0) := by
      apply List.filter_congr
      intro y hy
      have hya : ¬ y = a := fun hh => hnd.1 (hh ▸ hy)
      simp only [if_neg hya]
    rw [hfe, List.filter_cons]
    by_cases ha : inDeg a - 1 = 0
    · rw [if_pos ha, if_pos (by simpa using ha)]
      simp
    · rw [if_neg ha, if_neg (by simpa using ha)]

/-- A duplicate-free list whose members all equal `a` has at most one
element. -/
theorem length_le_one_of_nodup_all_eq {α : Type} (l : List α) (a : α)
    (hnd : l.Nodup) (h : ∀ x ∈ l, x = a) : l.length ≤ 1 := by
  match l with
  | [] => simp
  | [x] => simp
  | x :: y :: t =>
    exfalso
    have hx : x = a := h x (List.mem_cons_self _ _)
    have hy : y = a := h y (List.mem_cons_of_mem _ (List.mem_cons_self _ _))
    rw [List.nodup_cons] at hnd
    exact hnd.1 (by rw [hx, ← hy]; exact List.mem_cons_self _ _)

/-- Emitting a node that is not an unemitted dependency leaves the
unemitted-dependency filter unchanged. -/
theorem filter_unemitted_append_other (L result : List String) (a : String)
    (h : a ∉ L ∨ a ∈ result) :
    L.filter (fun d => !((result ++ [a]).contains d)) =
      L.filter (fun d => !(result.contains d)) := by
  apply List.filter_congr
  intro d hd
  by_cases hdr : d ∈ result
  · simp [List.elem_iff, hdr]
  · have hda : ¬ d = a := by
      rcases h with h | h
      · exact fun hh => h (hh ▸ hd)
      · exact fun hh => hdr (hh ▸ h)
    simp [List.elem_iff, hdr, hda]

/-- Emitting an unemitted dependency drops exactly one element from the
unemitted-dependency filter. -/
theorem length_filter_unemitted_append_mem (L result : List String)
    (a : String) (hnd : L.Nodup) (haL : a ∈ L) (har : a ∉ result) :
    (L.filter (fun d => !((result ++ [a]).contains d))).length + 1 =
      (L.filter (fun d => !(result.contains d))).length := by
  have hsplit : L.filter (fun d => !((result ++ [a]).contains d)) =
      (L.filter (fun d => !(result.contains d))).filter (fun d => d != a) := by
    rw [List.filter_filter]
    apply List.filter_congr
    intro d hd
    by_cases hda : d = a
    · subst hda
      simp [List.elem_iff, har]
    · by_cases hdr : d ∈ result
      · simp [List.elem_iff, hdr, hda]
      · simp [List.elem_iff, hdr, hda]
  have hnd2 : (L.filter (fun d => !(result.contains d))).Nodup := hnd.filter _
  have hmem : a ∈ L.filter (fun d => !(result.contains d)) := by
    rw [List.mem_filter]
    exact ⟨haL, by simp [List.elem_iff, har]⟩
  rw [hsplit, ← List.Nodup.erase_eq_filter hnd2 a,
    List.length_erase_of_mem hmem]
  have hpos : 0 < (L.filter (fun d => !(result.contains d))).length :=
    List.length_pos.mpr (List.ne_nil_of_mem hmem)
  omega

/-- One Kahn iteration preserves the loop invariant: the dequeued head
is emitted, its dependents' in-degrees are decremented and the newly
ready dependents are enqueued. -/
theorem kahnStep_invariant (g : DependencyGraph) (hwf : g.WF)
    (current : String) (queue : List String) (inDeg : String → Int)
    (result : List String)
    (hinv : KahnInv g (current :: queue) inDeg result) :
    KahnInv g
      ((g.getDependents current).foldl kahnVisit (inDeg, queue)).2
      ((g.getDependents current).foldl kahnVisit (inDeg, queue)).1
      (result ++ [current]) := by
  obtain ⟨hrn, hqn, hdisj, hrk, hqk, hdeg, hsort, hready, hcomp⟩ := hinv
  have hlnd : (g.getDependents current).Nodup := wf_dependents_nodup g hwf current
  have hcurk : current ∈ g.getPackages := hqk current (List.mem_cons_self _ _)
  have hcurnr : current ∉ result := hdisj current (List.mem_cons_self _ _)
  have hcurq : current ∉ queue := (List.nodup_cons.mp hqn).1
  have hqn' : queue.Nodup := (List.nodup_cons.mp hqn).2
  have hreadyc : ∀ d ∈ g.getDependencies current, d ∈ result :=
    hready current (List.mem_cons_self _ _)
  have hdegE := kahnFold_deg (g.getDependents current) hlnd inDeg queue
  have hqE := kahnFold_queue (g.getDependents current) hlnd inDeg queue
  have hmeml : ∀ x, x ∈ g.getDependents current ↔
      current ∈ g.getDependencies x := fun x => wf_mirror g hwf current x
  have hnotr : ∀ y ∈ g.getDependents current, y ∉ result := by
    intro y hyl hyr
    obtain ⟨i, hi, hget⟩ := List.mem_iff_getElem.mp hyr
    have hcy : current ∈ g.getDependencies y := (hmeml y).mp hyl
    have hcd := hsort i hi current
      (by rw [show result.get ⟨i, hi⟩ = y from hget]; exact hcy)
    exact hcurnr (List.take_subset i result hcd)
  have hnotc : ∀ y ∈ g.getDependents current, ¬ y = current := by
    intro y hyl hyc
    have hcy : current ∈ g.getDependencies y := (hmeml y).mp hyl
    rw [hyc] at hcy
    exact hcurnr (hreadyc current hcy)
  have hnotq : ∀ y ∈ g.getDependents current, y ∉ queue := by
    intro y hyl hyq
    have hcy : current ∈ g.getDependencies y := (hmeml y).mp hyl
    exact hcurnr (hready y (List.mem_cons_of_mem _ hyq) current hcy)
  have hlk : ∀ y ∈ g.getDependents current, y ∈ g.getPackages :=
    wf_dependents_keys g hwf current
  have hdeg' : ∀ x ∈ g.getPackages,
      ((g.getDependents current).foldl kahnVisit (inDeg, queue)).1 x =
        (((g.getDependencies x).filter
          (fun d => !((result ++ [current]).contains d))).length : Int) := by
    intro x hxk
    rw [hdegE x]
    by_cases hxl : x ∈ g.getDependents current
    · rw [if_pos hxl, hdeg x hxk]
      have hcx : current ∈ g.getDependencies x := (hmeml x).mp hxl
      have hcount := length_filter_unemitted_append_mem
        (g.getDependencies x) result current (wf_deps_nodup g hwf x) hcx hcurnr
      omega
    · have hside : current ∉ g.getDependencies x ∨ current ∈ result :=
        Or.inl (fun hc => hxl ((hmeml x).mpr hc))
      rw [if_neg hxl, hdeg x hxk,
        filter_unemitted_append_other (g.getDependencies x) result current hside]
  have hnew_mem : ∀ y ∈ (g.getDependents current).filter
      (fun y => inDeg y - 1 == 0),
      y ∈ g.getDependents current ∧ inDeg y - 1 = 0 := by
    intro y hy
    rw [List.mem_filter] at hy
    exact ⟨hy.1, by simpa using hy.2⟩
  have hnew_ready : ∀ y ∈ (g.getDependents current).filter
      (fun y => inDeg y - 1 == 0),
      ∀ d ∈ g.getDependencies y, d ∈ result ++ [current] := by
    intro y hy d hd
    obtain ⟨hyl, hy0⟩ := hnew_mem y hy
    have hyk := hlk y hyl
    have h1 : ((g.getDependents current).foldl kahnVisit (inDeg, queue)).1 y
        = 0 := by
      rw [hdegE y, if_pos hyl, hy0]
    have h2 := hdeg' y hyk
    rw [h1] at h2
    have h3 : ((g.getDependencies y).filter
        (fun d => !((result ++ [current]).contains d))).length = 0 := by
      omega
    rw [List.length_eq_zero, List.filter_eq_nil_iff] at h3
    have h4 := h3 d hd
    rw [List.mem_append]
    by_cases hdr : d ∈ result
    · exact Or.inl hdr
    · refine Or.inr ?_
      rw [List.mem_singleton]
      simpa [List.elem_iff, hdr] using h4
  refine ⟨?_, ?_, ?_, ?_, ?_, hdeg', ?_, ?_, ?_⟩
  · -- result' nodup
    rw [List.nodup_append]
    refine ⟨hrn, List.nodup_singleton _, ?_⟩
    intro a ha hac
    rw [List.mem_singleton] at hac
    exact hcurnr (hac ▸ ha)
  · -- queue' nodup
    rw [hqE, List.nodup_append]
    refine ⟨hqn', hlnd.filter _, ?_⟩
    intro a ha haf
    rw [List.mem_filter] at haf
    exact hnotq a haf.1 ha
  · -- disjointness queue' vs result'
    rw [hqE]
    intro x hx hxr
    rcases List.mem_append.mp hx with hx | hx
    · rcases List.mem_append.mp hxr with hr | hr
      · exact hdisj x (List.mem_cons_of_mem _ hx) hr
      · rw [List.mem_singleton] at hr
        exact hcurq (hr ▸ hx)
    · rw [List.mem_filter] at hx
      rcases List.mem_append.mp hxr with hr | hr
      · exact hnotr x hx.1 hr
      · rw [List.mem_singleton] at hr
        exact hnotc x hx.1 hr
  · -- result' keys
    intro x hx
    rcases List.mem_append.mp hx with hx | hx
    · exact hrk x hx
    · rw [List.mem_singleton] at hx
      exact hx ▸ hcurk
  · -- queue' keys
    rw [hqE]
    intro x hx
    rcases List.mem_append.mp hx with hx | hx
    · exact hqk x (List.mem_cons_of_mem _ hx)
    · rw [List.mem_filter] at hx
      exact hlk x hx.1
  · -- sorted
    intro i hi d hd
    have hlen : i < result.length + 1 := by simpa using hi
    rcases Nat.lt_succ_iff_lt_or_eq.mp hlen with hlt | heq
    · have hget : (result ++ [current]).get ⟨i, hi⟩ = result.get ⟨i, hlt⟩ :=
        List.getElem_append_left hlt
      rw [hget] at hd
      rw [List.take_append_of_le_length (Nat.le_of_lt hlt)]
      exact hsort i hlt d hd
    · subst heq
      have hget : (result ++ [current]).get ⟨result.length, hi⟩ = current := by
        rw [List.get_eq_getElem, List.getElem_append_right (Nat.le_refl _)]
        simp
      rw [hget] at hd
      rw [List.take_left]
      exact hreadyc d hd
  · -- queue' ready
    rw [hqE]
    intro x hx d hd
    rcases List.mem_append.mp hx with hx | hx
    · exact List.mem_append_left _ (hready x (List.mem_cons_of_mem _ hx) d hd)
    · exact hnew_ready x hx d hd
  · -- complete
    rw [hqE]
    intro x hxk hxr' hall
    by_cases hallr : ∀ d ∈ g.getDependencies x, d ∈ result
    · have hx := hcomp x hxk (fun hh => hxr' (List.mem_append_left _ hh)) hallr
      rcases List.mem_cons.mp hx with h | h
      · exact absurd (List.mem_append_right result
          (by rw [h]; exact List.mem_singleton_self current)) hxr'
      · exact List.mem_append_left _ h
    · push_neg at hallr
      obtain ⟨d0, hd0, hd0r⟩ := hallr
      have hd0c : d0 = current := by
        rcases List.mem_append.mp (hall d0 hd0) with h | h
        · exact absurd h hd0r
        · simpa using h
      have hcx : current ∈ g.getDependencies x := hd0c ▸ hd0
      have hxl : x ∈ g.getDependents current := (hmeml x).mpr hcx
      have hxr : x ∉ result := fun hh => hxr' (List.mem_append_left _ hh)
      have hcnt1 : ((g.getDependencies x).filter
          (fun d => !(result.contains d))).length = 1 := by
        have hndx := wf_deps_nodup g hwf x
        have hsub : ((g.getDependencies x).filter
            (fun d => !(result.contains d))).Nodup := hndx.filter _
        have hallc : ∀ d ∈ (g.getDependencies x).filter
            (fun d => !(result.contains d)), d = current := by
          intro d hdf
          rw [List.mem_filter] at hdf
          have hdm : d ∉ result := by simpa [List.elem_iff] using hdf.2
          rcases List.mem_append.mp (hall d hdf.1) with h | h
          · exact absurd h hdm
          · simpa using h
        have hmemf : current ∈ (g.getDependencies x).filter
            (fun d => !(result.contains d)) := by
          rw [List.mem_filter]
          exact ⟨hcx, by simp [List.elem_iff, hcurnr]⟩
        have hle := length_le_one_of_nodup_all_eq _ current hsub hallc
        have hpos : 0 < ((g.getDependencies x).filter
            (fun d => !(result.contains d))).length :=
          List.length_pos.mpr (List.ne_nil_of_mem hmemf)
        omega
      have hdx : inDeg x - 1 = 0 := by
        rw [hdeg x hxk, hcnt1]
        decide
      refine List.mem_append_right _ (List.mem_filter.mpr ⟨hxl, by simp [hdx]⟩)

/-- The Kahn loop with `|nodes|` fuel runs to an empty queue and
maintains the invariant: each iteration emits exactly one node, and a
duplicate-free emission bounded by the node count exhausts the fuel only
after the queue is empty. -/
theorem kahnLoop_spec (g : DependencyGraph) (hwf : g.WF) :
    ∀ (fuel : Nat) (queue : List String) (inDeg : String → Int)
      (result : List String),
      KahnInv g queue inDeg result →
      g.getPackages.length ≤ fuel + result.length →
      ∃ res inDegF, kahnLoop g fuel queue inDeg result = (res, []) ∧
        KahnInv g [] inDegF res := by
  intro fuel
  induction fuel with
  | zero =>
    intro queue inDeg result hinv hcount
    have hlen : g.getPackages.length ≤ result.length := by simpa using hcount
    have hsub : result.Subperm g.getPackages :=
      hinv.result_nodup.subperm (fun x hx => hinv.result_keys x hx)
    have hperm : result.Perm g.getPackages := hsub.perm_of_length_le hlen
    have hqnil : queue = [] := by
      rw [List.eq_nil_iff_forall_not_mem]
      intro x hx
      exact hinv.disj x hx (hperm.mem_iff.mpr (hinv.queue_keys x hx))
    refine ⟨result, inDeg, ?_, ?_⟩
    · rw [show kahnLoop g 0 queue inDeg result = (result, queue) from rfl,
        hqnil]
    · exact ⟨hinv.result_nodup, List.nodup_nil, by simp, hinv.result_keys,
        by simp, hinv.deg, hinv.sorted, by simp,
        fun x hxk hxr hall => hqnil ▸ hinv.complete x hxk hxr hall⟩
  | succ f ih =>
    intro queue inDeg result hinv hcount
    cases queue with
    | nil =>
      refine ⟨result, inDeg, rfl, ?_⟩
      exact ⟨hinv.result_nodup, List.nodup_nil, by simp, hinv.result_keys,
        by simp, hinv.deg, hinv.sorted, by simp, hinv.complete⟩
    | cons current queue =>
      have hstep := kahnStep_invariant g hwf current queue inDeg result hinv
      have hcount' : g.getPackages.length ≤ f + (result ++ [current]).length := by
        simp only [List.length_append, List.length_cons, List.length_singleton]
        omega
      obtain ⟨res, inDegF, heq, hinvF⟩ := ih _ _ _ hstep hcount'
      exact ⟨res, inDegF, heq, hinvF⟩

/-- A finite set of nodes in which every node has a dependency inside
the set yields a dependency cycle. -/
theorem exists_transGen_cycle (g : DependencyGraph) (S : List String)
    (hne : S ≠ [])
    (hstep : ∀ x ∈ S, ∃ d, d ∈ g.getDependencies x ∧ d ∈ S) :
    ∃ x, Relation.TransGen (dependsOn g) x x := by
  classical
  obtain ⟨x0, hx0⟩ := List.exists_mem_of_ne_nil S hne
  let F : String → String :=
    fun x => if hx : x ∈ S then (hstep x hx).choose else x
  have hF : ∀ x ∈ S, F x ∈ g.getDependencies x ∧ F x ∈ S := by
    intro x hx
    have : F x = (hstep x hx).choose := dif_pos hx
    rw [this]
    exact (hstep x hx).choose_spec
  have hseqS : ∀ n, F^[n] x0 ∈ S := by
    intro n
    induction n with
    | zero => exact hx0
    | succ m ihm =>
      rw [Function.iterate_succ_apply' F m x0]
      exact (hF _ ihm).2
  have hstep' : ∀ n, dependsOn g (F^[n] x0) (F^[n + 1] x0) := by
    intro n
    rw [Function.iterate_succ_apply' F n x0]
    exact (hF _ (hseqS n)).1
  have hchain : ∀ j i, i < j →
      Relation.TransGen (dependsOn g) (F^[i] x0) (F^[j] x0) := by
    intro j
    induction j with
    | zero => intro i h; exact absurd h (by omega)
    | succ m ihm =>
      intro i h
      rcases Nat.lt_succ_iff_lt_or_eq.mp h with hlt | heq2
      · exact (ihm i hlt).tail (hstep' m)
      · subst heq2
        exact Relation.TransGen.single (hstep' i)
  have hmaps : ∀ n ∈ Finset.range (S.length + 1), F^[n] x0 ∈ S.toFinset :=
    fun n _ => List.mem_toFinset.mpr (hseqS n)
  have hcard : S.toFinset.card < (Finset.range (S.length + 1)).card := by
    rw [Finset.card_range]
    exact Nat.lt_succ_of_le (List.toFinset_card_le S)
  obtain ⟨i, hi, j, hj, hij, heq⟩ :=
    Finset.exists_ne_map_eq_of_card_lt_of_maps_to hcard hmaps
  rcases Nat.lt_or_ge i j with h | h
  · have hc := hchain j i h
    rw [← heq] at hc
    exact ⟨F^[i] x0, hc⟩
  · have h' : j < i := by omega
    have hc := hchain i j h'
    rw [heq] at hc
    exact ⟨F^[j] x0, hc⟩

/-- On an acyclic well-formed graph, a terminated Kahn run (empty queue)
has emitted every node. -/
theorem kahn_complete (g : DependencyGraph) (hwf : g.WF) (hacyc : Acyclic g)
    (res : List String) (inDegF : String → Int)
    (hinv : KahnInv g [] inDegF res) :
    res.Perm g.getPackages := by
  by_cases hS : ∀ x ∈ g.getPackages, x ∈ res
  · exact (hinv.result_nodup.subperm
      (fun x hx => hinv.result_keys x hx)).antisymm
      (hwf.1.subperm (fun x hx => hS x hx))
  · exfalso
    push_neg at hS
    obtain ⟨x0, hx0k, hx0r⟩ := hS
    have hstep : ∀ x ∈ g.getPackages.filter (fun z => !(res.contains z)),
        ∃ d, d ∈ g.getDependencies x ∧
          d ∈ g.getPackages.filter (fun z => !(res.contains z)) := by
      intro x hx
      rw [List.mem_filter] at hx
      have hxr : x ∉ res := by simpa [List.elem_iff] using hx.2
      have hnall : ¬ (∀ d ∈ g.getDependencies x, d ∈ res) := by
        intro hall
        simpa using hinv.complete x hx.1 hxr hall
      push_neg at hnall
      obtain ⟨d, hd, hdr⟩ := hnall
      refine ⟨d, hd, ?_⟩
      rw [List.mem_filter]
      exact ⟨wf_deps_keys g hwf x d hd, by simp [List.elem_iff, hdr]⟩
    have hne : g.getPackages.filter (fun z => !(res.contains z)) ≠ [] := by
      intro hcontra
      rw [List.filter_eq_nil_iff] at hcontra
      exact (by simpa [List.elem_iff, hx0r] using hcontra x0 hx0k)
    obtain ⟨x, hx⟩ := exists_transGen_cycle g _ hne hstep
    exact hacyc x hx

/-- The initial state of `topologicalSort` satisfies the invariant. -/
theorem kahnInit_invariant (g : DependencyGraph) (hwf : g.WF) :
    KahnInv g
      ((g.nodes.filter (fun kv => kv.2.dependencies.isEmpty)).map Prod.fst)
      (fun x => ((g.getDependencies x).length : Int)) [] := by
  have hqnd : ((g.nodes.filter
      (fun kv => kv.2.dependencies.isEmpty)).map Prod.fst).Nodup :=
    (List.Sublist.map Prod.fst (List.filter_sublist g.nodes)).nodup hwf.1
  refine ⟨List.nodup_nil, hqnd, by simp, by simp, ?_, ?_, ?_, ?_, ?_⟩
  · intro x hx
    rw [List.mem_map] at hx
    obtain ⟨kv, hkv, hfst⟩ := hx
    rw [List.mem_filter] at hkv
    exact hfst ▸ List.mem_map_of_mem Prod.fst hkv.1
  · intro x _
    have hfe : (g.getDependencies x).filter
        (fun d => !(([] : List String).contains d)) = g.getDependencies x :=
      List.filter_eq_self.mpr (fun a _ => rfl)
    rw [hfe]
  · intro i hi
    simp at hi
  · intro x hx d hd
    exfalso
    rw [List.mem_map] at hx
    obtain ⟨kv, hkv, hfst⟩ := hx
    rw [List.mem_filter] at hkv
    have hlk : g.nodes.lookup x = some kv.2 := by
      apply lookup_eq_of_mem_nodup g.nodes hwf.1
      rw [← hfst]
      exact hkv.1
    have hdeps : g.getDependencies x = kv.2.dependencies := by
      unfold DependencyGraph.getDependencies
      rw [hlk]
    rw [hdeps] at hd
    rw [List.isEmpty_iff] at hkv
    rw [hkv.2] at hd
    simp at hd
  · intro x hxk _ hall
    have hnil : g.getDependencies x = [] := by
      rw [List.eq_nil_iff_forall_not_mem]
      intro d hd
      simpa using hall d hd
    unfold DependencyGraph.getPackages at hxk
    rw [List.mem_map] at hxk
    obtain ⟨kv, hkv, hfst⟩ := hxk
    have hlk : g.nodes.lookup x = some kv.2 := by
      apply lookup_eq_of_mem_nodup g.nodes hwf.1
      rw [← hfst]
      exact hkv
    have hdeps : g.getDependencies x = kv.2.dependencies := by
      unfold DependencyGraph.getDependencies
      rw [hlk]
    rw [List.mem_map]
    refine ⟨kv, ?_, hfst⟩
    rw [List.mem_filter]
    refine ⟨hkv, ?_⟩
    rw [List.isEmpty_iff, ← hdeps, hnil]

/-- On a well-formed DAG, `topologicalSort` is a completed Kahn run:
empty final queue, no cycles reported, and the order enumerates the
nodes. -/
theorem topologicalSort_run (g : DependencyGraph) (hwf : g.WF)
    (hacyc : Acyclic g) :
    ∃ res inDegF, g.topologicalSort = ⟨res, []⟩ ∧ KahnInv g [] inDegF res ∧
      res.Perm g.getPackages := by
  obtain ⟨res, inDegF, heq, hinvF⟩ := kahnLoop_spec g hwf g.nodes.length
    ((g.nodes.filter (fun kv => kv.2.dependencies.isEmpty)).map Prod.fst)
    (fun x => ((g.getDependencies x).length : Int)) []
    (kahnInit_invariant g hwf)
    (by
      have hh : g.getPackages.length = g.nodes.length := List.length_map _ _
      omega)
  have hperm := kahn_complete g hwf hacyc res inDegF hinvF
  refine ⟨res, inDegF, ?_, hinvF, hperm⟩
  unfold DependencyGraph.topologicalSort
  simp only
  rw [heq]
  have hlen : res.length = g.nodes.length := by
    rw [hperm.length_eq]
    exact List.length_map _ _
  rw [if_pos hlen]

/-- **C3**.  On every well-formed dependency graph whose edges form a
DAG, `topologicalSort` emits every node exactly once (the order is a
permutation of the package list), reports no cycles, and every package
appears after all of its workspace dependencies (each emitted package's
dependencies lie in the strict prefix before it). -/
theorem topologicalSort_dag (g : DependencyGraph) (hwf : g.WF)
    (hacyc : Acyclic g) :
    g.topologicalSort.order.Perm g.getPackages ∧
    g.topologicalSort.cycles = [] ∧
    ∀ (i : Nat) (hi : i < g.topologicalSort.order.length),
      ∀ d ∈ g.getDependencies (g.topologicalSort.order.get ⟨i, hi⟩),
        d ∈ g.topologicalSort.order.take i := by
  obtain ⟨res, inDegF, hts, hinvF, hperm⟩ := topologicalSort_run g hwf hacyc
  rw [hts]
  exact ⟨hperm, rfl, hinvF.sorted⟩

/-- The only edge of `graphAppLib` is `app → lib`. -/
theorem dependsOn_graphAppLib (x y : String)
    (h : dependsOn graphAppLib x y) : x = "app" ∧ y = "lib" := by
  unfold dependsOn at h
  by_cases hx : x = "app"
  · subst hx
    have hd : graphAppLib.getDependencies ("app") = ["lib"] := by decide
    rw [hd] at h
    rw [List.mem_singleton] at h
    exact ⟨rfl, h⟩
  · by_cases hx2 : x = "lib"
    · subst hx2
      have hd : graphAppLib.getDependencies ("lib") = [] := by decide
      rw [hd] at h
      simp at h
    · have hn : graphAppLib.nodes =
          [(("app"), ⟨"app", ["lib"], []⟩), (("lib"), ⟨"lib", [], ["app"]⟩)] := by
        decide
      have hnone : graphAppLib.nodes.lookup x = none := by
        rw [hn, lookup_cons_if, if_neg hx, lookup_cons_if, if_neg hx2]
        rfl
      unfold DependencyGraph.getDependencies at h
      rw [hnone] at h
      simp at h

/-- `graphAppLib` is acyclic. -/
theorem acyclic_graphAppLib : Acyclic graphAppLib := by
  intro x hx
  have hall : ∀ u v, Relation.TransGen (dependsOn graphAppLib) u v →
      u = "app" ∧ v = "lib" := by
    intro u v huv
    induction huv with
    | single h => exact dependsOn_graphAppLib _ _ h
    | tail hs h ihs =>
      have hb := dependsOn_graphAppLib _ _ h
      rw [ihs.2] at hb
      exact absurd hb.1 (by decide)
  obtain ⟨h1, h2⟩ := hall x x hx
  rw [h1] at h2
  exact absurd h2 (by decide)

/-- `graphAppLib` is well-formed. -/
theorem wf_graphAppLib : DependencyGraph.WF graphAppLib := by
  unfold DependencyGraph.WF
  decide

/-- Witness for **C3**: the two-node DAG `app → lib` satisfies both
hypotheses and the sort's binder-free conclusions. -/
theorem topologicalSort_dag_witness :
    DependencyGraph.WF graphAppLib ∧ Acyclic graphAppLib ∧
      graphAppLib.topologicalSort.order.Perm graphAppLib.getPackages ∧
      graphAppLib.topologicalSort.cycles = [] :=
  ⟨wf_graphAppLib, acyclic_graphAppLib,
    (topologicalSort_dag graphAppLib wf_graphAppLib acyclic_graphAppLib).1,
    (topologicalSort_dag graphAppLib wf_graphAppLib acyclic_graphAppLib).2.1⟩

/-! ## Build batches (`getBuildBatches`) -/

/-- Folding the Set-style `add` over a list that is duplicate-free and
disjoint from the accumulator appends the list to the accumulator. -/
theorem foldl_setAdd_append :
    ∀ (l acc : List String), (∀ x ∈ l, x ∉ acc) → l.Nodup →
      l.foldl setAdd acc = acc ++ l := by
  intro l
  induction l with
  | nil => intro acc _ _; simp
  | cons a t ih =>
    intro acc hdisj hnd
    have ha : a ∉ acc := hdisj a (List.mem_cons_self a t)
    have hstep : setAdd acc a = acc ++ [a] := by
      unfold setAdd
      rw [if_neg ha]
    have hdisj' : ∀ x ∈ t, x ∉ acc ++ [a] := by
      intro x hx hmem
      rcases List.mem_append.mp hmem with hxa | hxa
      · exact hdisj x (List.mem_cons_of_mem a hx) hxa
      · rw [List.mem_singleton] at hxa
        exact (List.nodup_cons.mp hnd).1 (hxa ▸ hx)
    rw [List.foldl_cons, hstep,
      ih (acc ++ [a]) hdisj' (List.nodup_cons.mp hnd).2,
      List.append_assoc, List.singleton_append]

/-- Membership in one round's batch: in the order, unprocessed, and all
dependencies processed. -/
theorem mem_currentBatchOf (g : DependencyGraph)
    (order processed : List String) (p : String) :
    p ∈ currentBatchOf g order processed ↔
      p ∈ order ∧ p ∉ processed ∧
        ∀ d ∈ g.getDependencies p, d ∈ processed := by
  unfold currentBatchOf
  simp [List.mem_filter]

/-- Unfolding of a productive round of the `getBuildBatches` loop. -/
theorem buildBatchesLoop_succ (g : DependencyGraph) (order : List String)
    (f : Nat) (processed : List String)
    (hlt : processed.length < order.length) :
    buildBatchesLoop g order (f + 1) processed =
      (if (currentBatchOf g order processed).isEmpty then
        .error ("Unable to determine build order - possible circular dependency")
      else
        match buildBatchesLoop g order f
            ((currentBatchOf g order processed).foldl setAdd processed) with
        | .ok batches => .ok (currentBatchOf g order processed :: batches)
        | .error e => .error e) := by
  conv_lhs => unfold buildBatchesLoop
  rw [if_pos hlt]
  rfl

/-- Unfolding of the final round of the `getBuildBatches` loop. -/
theorem buildBatchesLoop_done (g : DependencyGraph) (order : List String)
    (f : Nat) (processed : List String)
    (hge : ¬ processed.length < order.length) :
    buildBatchesLoop g order (f + 1) processed = .ok [] := by
  unfold buildBatchesLoop
  rw [if_neg hge]

/-- Full specification of the `getBuildBatches` loop over a duplicate-free
topologically sorted `order`: with enough fuel it succeeds, the emitted
batches (together with the already-processed set) cover `order` exactly
once, every batch is nonempty, every package's dependencies are processed
before its batch, and its batch index is minimal for that property. -/
theorem buildBatchesLoop_spec (g : DependencyGraph) (order : List String)
    (hnd : order.Nodup)
    (hsorted : ∀ (i : Nat) (hi : i < order.length),
      ∀ d ∈ g.getDependencies (order.get ⟨i, hi⟩), d ∈ order.take i) :
    ∀ (fuel : Nat) (processed : List String),
      processed.Nodup →
      (∀ x ∈ processed, x ∈ order) →
      (∀ p ∈ processed, ∀ d ∈ g.getDependencies p, d ∈ processed) →
      order.length + 1 ≤ fuel + processed.length →
      ∃ batches, buildBatchesLoop g order fuel processed = .ok batches ∧
        (∀ x, x ∈ processed ++ batches.flatten ↔ x ∈ order) ∧
        (processed ++ batches.flatten).Nodup ∧
        (∀ b ∈ batches, b ≠ []) ∧
        ∀ (k : Nat) (hk : k < batches.length), ∀ p ∈ batches.get ⟨k, hk⟩,
          (∀ d ∈ g.getDependencies p,
            d ∈ processed ++ (batches.take k).flatten) ∧
          ∀ j < k, ∃ d ∈ g.getDependencies p,
            d ∉ processed ++ (batches.take j).flatten := by
  intro fuel
  induction fuel with
  | zero =>
    intro processed hpnd hpsub _ hfuel
    exfalso
    have hlen : processed.length ≤ order.length :=
      (hpnd.subperm (fun x hx => hpsub x hx)).length_le
    omega
  | succ f ih =>
    intro processed hpnd hpsub hpclosed hfuel
    by_cases hlt : processed.length < order.length
    · -- a productive round: the batch is nonempty
      have hexmem : ∃ x ∈ order, x ∉ processed := by
        by_contra hno
        push_neg at hno
        have hsp : order.Subperm processed :=
          hnd.subperm (fun x hx => hno x hx)
        have := hsp.length_le
        omega
      have hexP : ∃ i, i < order.length ∧ order.getD i "" ∉ processed := by
        obtain ⟨x, hxo, hxp⟩ := hexmem
        obtain ⟨i, hi, hxi⟩ := List.mem_iff_getElem.mp hxo
        exact ⟨i, hi, by rw [List.getD_eq_getElem order "" hi, hxi]; exact hxp⟩
      obtain ⟨hi0lt, hi0np⟩ := Nat.find_spec hexP
      have hx0mem : order.getD (Nat.find hexP) "" ∈
          currentBatchOf g order processed := by
        rw [mem_currentBatchOf]
        refine ⟨?_, hi0np, ?_⟩
        · rw [List.getD_eq_getElem order "" hi0lt]
          exact List.getElem_mem hi0lt
        · intro d hd
          have hged : order.getD (Nat.find hexP) "" =
              order.get ⟨Nat.find hexP, hi0lt⟩ := by
            rw [List.getD_eq_getElem order "" hi0lt]
            rfl
          have hdt : d ∈ order.take (Nat.find hexP) :=
            hsorted (Nat.find hexP) hi0lt d (hged ▸ hd)
          obtain ⟨m, hm, hdm⟩ := List.mem_iff_getElem.mp hdt
          rw [List.length_take, lt_min_iff] at hm
          rw [List.getElem_take] at hdm
          have hmp : order.getD m "" ∈ processed := by
            by_contra hcon
            exact Nat.find_min hexP hm.1 ⟨hm.2, hcon⟩
          rw [List.getD_eq_getElem order "" hm.2, hdm] at hmp
          exact hmp
      have hne : currentBatchOf g order processed ≠ [] :=
        List.ne_nil_of_mem hx0mem
      have hnemp : (currentBatchOf g order processed).isEmpty = false := by
        simp [List.isEmpty_iff, hne]
      have hbnd : (currentBatchOf g order processed).Nodup := by
        unfold currentBatchOf
        exact (List.filter_sublist order).nodup hnd
      have hbsub : ∀ x ∈ currentBatchOf g order processed, x ∈ order :=
        fun x hx => ((mem_currentBatchOf g order processed x).mp hx).1
      have hbdisj : ∀ x ∈ currentBatchOf g order processed, x ∉ processed :=
        fun x hx => ((mem_currentBatchOf g order processed x).mp hx).2.1
      have hbdeps : ∀ x ∈ currentBatchOf g order processed,
          ∀ d ∈ g.getDependencies x, d ∈ processed :=
        fun x hx => ((mem_currentBatchOf g order processed x).mp hx).2.2
      have hfold : (currentBatchOf g order processed).foldl setAdd processed =
          processed ++ currentBatchOf g order processed :=
        foldl_setAdd_append _ _ hbdisj hbnd
      have hpnd' : (processed ++ currentBatchOf g order processed).Nodup := by
        rw [List.nodup_append]
        exact ⟨hpnd, hbnd, fun a ha hb => hbdisj a hb ha⟩
      have hpsub' : ∀ x ∈ processed ++ currentBatchOf g order processed,
          x ∈ order := by
        intro x hx
        rcases List.mem_append.mp hx with h | h
        · exact hpsub x h
        · exact hbsub x h
      have hpclosed' : ∀ p ∈ processed ++ currentBatchOf g order processed,
          ∀ d ∈ g.getDependencies p,
            d ∈ processed ++ currentBatchOf g order processed := by
        intro p hp d hd
        rcases List.mem_append.mp hp with h | h
        · exact List.mem_append_left _ (hpclosed p h d hd)
        · exact List.mem_append_left _ (hbdeps p h d hd)
      have hfuel' : order.length + 1 ≤
          f + (processed ++ currentBatchOf g order processed).length := by
        rw [List.length_append]
        have h1 : 0 < (currentBatchOf g order processed).length :=
          List.length_pos.mpr hne
        omega
      obtain ⟨batches, hbeq, hcov, hnodup, hbne, hbatch⟩ :=
        ih (processed ++ currentBatchOf g order processed)
          hpnd' hpsub' hpclosed' hfuel'
      refine ⟨currentBatchOf g order processed :: batches, ?_, ?_, ?_, ?_, ?_⟩
      · rw [buildBatchesLoop_succ g order f processed hlt, hnemp, hfold, hbeq]
        rfl
      · intro x
        rw [List.flatten_cons, ← List.append_assoc]
        exact hcov x
      · rw [List.flatten_cons, ← List.append_assoc]
        exact hnodup
      · intro b hb
        rcases List.mem_cons.mp hb with rfl | hb'
        · exact hne
        · exact hbne b hb'
      · intro k hk p hp
        cases k with
        | zero =>
          constructor
          · intro d hd
            rw [List.take_zero, List.flatten_nil, List.append_nil]
            exact hbdeps p hp d hd
          · intro j hj
            exact absurd hj (Nat.not_lt_zero j)
        | succ k' =>
          have hk' : k' < batches.length := by
            simpa using hk
          have hp' : p ∈ batches.get ⟨k', hk'⟩ := hp
          obtain ⟨hdep, hmin⟩ := hbatch k' hk' p hp'
          constructor
          · intro d hd
            have hd' := hdep d hd
            rw [List.take_succ_cons, List.flatten_cons, ← List.append_assoc]
            exact hd'
          · intro j hj
            cases j with
            | zero =>
              have hpfl : p ∈ batches.flatten :=
                List.mem_flatten.mpr
                  ⟨batches.get ⟨k', hk'⟩, List.get_mem batches k' hk', hp'⟩
              have hpnp : p ∉ processed ++ currentBatchOf g order processed := by
                intro hmem
                exact (List.nodup_append.mp hnodup).2.2 hmem hpfl
              have hpo : p ∈ order :=
                (hcov p).mp (List.mem_append_right _ hpfl)
              have hpnproc : p ∉ processed :=
                fun h => hpnp (List.mem_append_left _ h)
              have hpncb : p ∉ currentBatchOf g order processed :=
                fun h => hpnp (List.mem_append_right _ h)
              have hnall : ¬ ∀ d ∈ g.getDependencies p, d ∈ processed := by
                intro hall
                exact hpncb ((mem_currentBatchOf g order processed p).mpr
                  ⟨hpo, hpnproc, hall⟩)
              push_neg at hnall
              obtain ⟨d, hd, hdn⟩ := hnall
              refine ⟨d, hd, ?_⟩
              rw [List.take_zero, List.flatten_nil, List.append_nil]
              exact hdn
            | succ j' =>
              have hj' : j' < k' := by omega
              obtain ⟨d, hd, hdn⟩ := hmin j' hj'
              refine ⟨d, hd, ?_⟩
              rw [List.take_succ_cons, List.flatten_cons, ← List.append_assoc]
              exact hdn
    · -- done: processed already covers the whole order
      have hperm : processed.Perm order :=
        (hpnd.subperm (fun x hx => hpsub x hx)).perm_of_length_le (by omega)
      refine ⟨[], buildBatchesLoop_done g order f processed hlt, ?_, ?_, ?_, ?_⟩
      · intro x
        rw [List.flatten_nil, List.append_nil]
        exact hperm.mem_iff
      · rw [List.flatten_nil, List.append_nil]
        exact hpnd
      · intro b hb
        exact absurd hb (List.not_mem_nil b)
      · intro k hk
        exact absurd hk (Nat.not_lt_zero k)

/-- **C4**.  On every well-formed acyclic dependency graph,
`getBuildBatches` succeeds and returns a partition of all packages into
batches (the concatenation of the batches is a permutation of the package
list): for every package `p` in batch `k`, every workspace dependency of
`p` lies in some batch `j < k`, and `k` is the lowest index with that
property (for every `j < k` some dependency of `p` is not in the batches
before `j`). -/
theorem getBuildBatches_partition (g : DependencyGraph) (hwf : g.WF)
    (hacyc : Acyclic g) :
    ∃ batches, g.getBuildBatches = .ok batches ∧
      batches.flatten.Perm g.getPackages ∧
      ∀ (k : Nat) (hk : k < batches.length), ∀ p ∈ batches.get ⟨k, hk⟩,
        (∀ d ∈ g.getDependencies p, d ∈ (batches.take k).flatten) ∧
        ∀ j < k, ∃ d ∈ g.getDependencies p, d ∉ (batches.take j).flatten := by
  obtain ⟨res, inDegF, hts, hinvF, hperm⟩ := topologicalSort_run g hwf hacyc
  obtain ⟨batches, hbeq, hcov, hnodup, hbne, hbatch⟩ :=
    buildBatchesLoop_spec g res hinvF.result_nodup hinvF.sorted
      (res.length + 1) [] List.nodup_nil (by simp) (by simp) (by omega)
  refine ⟨batches, ?_, ?_, ?_⟩
  · have hrun : g.getBuildBatches =
        buildBatchesLoop g res (res.length + 1) [] := by
      unfold DependencyGraph.getBuildBatches
      rw [hts]
      rfl
    rw [hrun]
    exact hbeq
  · have hfl : batches.flatten.Nodup := by simpa using hnodup
    have hmem : ∀ x, x ∈ batches.flatten ↔ x ∈ res := by
      intro x
      simpa using hcov x
    have hp1 : batches.flatten.Subperm res :=
      hfl.subperm (fun x hx => (hmem x).mp hx)
    have hp2 : res.Subperm batches.flatten :=
      hinvF.result_nodup.subperm (fun x hx => (hmem x).mpr hx)
    exact (hp1.antisymm hp2).trans hperm
  · intro k hk p hp
    obtain ⟨hdep, hmin⟩ := hbatch k hk p hp
    constructor
    · intro d hd
      simpa using hdep d hd
    · intro j hj
      obtain ⟨d, hd, hdn⟩ := hmin j hj
      refine ⟨d, hd, ?_⟩
      simpa using hdn

/-- Witness for **C4**: the two-node DAG `app → lib` satisfies both
hypotheses, and its batches are the claimed partition. -/
theorem getBuildBatches_partition_witness :
    DependencyGraph.WF graphAppLib ∧ Acyclic graphAppLib ∧
      ∃ batches, graphAppLib.getBuildBatches = .ok batches ∧
        batches.flatten.Perm graphAppLib.getPackages ∧
        ∀ (k : Nat) (hk : k < batches.length), ∀ p ∈ batches.get ⟨k, hk⟩,
          (∀ d ∈ graphAppLib.getDependencies p,
            d ∈ (batches.take k).flatten) ∧
          ∀ j < k, ∃ d ∈ graphAppLib.getDependencies p,
            d ∉ (batches.take j).flatten :=
  ⟨wf_graphAppLib, acyclic_graphAppLib,
    getBuildBatches_partition graphAppLib wf_graphAppLib acyclic_graphAppLib⟩
